import Mathlib

/-!
# SearchingTree (treap) — shallow embedding of `SearchingTree/include/SearchingTree.h`

The container is a pointer graph of `std::shared_ptr<Node>` that `split` and `merge`
rewire in place, and cursors compare node identities.  The embedding therefore keeps an
explicit store: a node address is an index into a list of nodes, a null pointer is
`none`, and every function threads the store.

The instantiation is `SearchingTree<K, int>` for a signed integer type `K` that holds
every `int`; `demo.cpp` uses `K = int`.  A key is an `Int`.  The source leaves `K` at one
place: `split` is declared with the parameter `int k`, so `insert` converts the key on the
call `split(root, key)` (`keyToInt`: the value modulo `2 ^ 32`, the identity on an `int`),
and the comparison `k > v->key` inside `split` is made in `K` again.

Loops and recursions of the source take a fuel argument; running out of fuel is the
error `Err.fuel`.  Dereferencing a null pointer and calling `top()` on an empty
`std::stack` are undefined behaviour in the source and are the errors `Err.nullDeref`
and `Err.emptyStack`.  The only exception the source throws, `std::range_error`, is
`Err.outOfRange`.

`insert`, `erase` and the cursor operations release no node, so a `std::weak_ptr` held by
a cursor never expires and is modelled by the address it refers to.  Move-assignment
drops the pointers to the nodes the destination held; a node nothing points to any more
stays in the store, where no function reaches it.
-/

namespace SearchingTree

/-! ## The store -/

/-- Failure modes of the embedded code. -/
inductive Err where
  | nullDeref
  | emptyStack
  | outOfRange
  | fuel
  deriving DecidableEq, Repr

/-- `SearchingTree<int,int>::Node`: key, value, priority and the two owned children. -/
structure Node where
  key : Int
  value : Int
  priority : Int
  left : Option Nat
  right : Option Nat
  deriving DecidableEq, Repr

/-- The node `std::make_shared<Node>()` creates: value-initialised, no children. -/
def Node.fresh : Node := ⟨0, 0, 0, none, none⟩

/-- Conversion of the unsigned 32-bit output of `std::mt19937` to `int priority`. -/
def toInt32 (u : Nat) : Int :=
  if u % 2 ^ 32 < 2 ^ 31 then ((u % 2 ^ 32 : Nat) : Int) else ((u % 2 ^ 32 : Nat) : Int) - 2 ^ 32

/-- Conversion of a key to the parameter `int k` of `split`: the value modulo `2 ^ 32` in
the range of `int`, the key itself when it is an `int`. -/
def keyToInt (k : Int) : Int := (k + 2 ^ 31) % 2 ^ 32 - 2 ^ 31

/-- Read through a pointer: `p->...`. -/
def deref (h : List Node) : Option Nat → Except Err Node
  | none => .error .nullDeref
  | some a =>
    match h[a]? with
    | some n => .ok n
    | none => .error .nullDeref

/-- The assignment `a->left = p`. -/
def setLeft (h : List Node) (a : Nat) (p : Option Nat) : Except Err (List Node) :=
  match h[a]? with
  | some n => .ok (h.set a { n with left := p })
  | none => .error .nullDeref

/-- The assignment `a->right = p`. -/
def setRight (h : List Node) (a : Nat) (p : Option Nat) : Except Err (List Node) :=
  match h[a]? with
  | some n => .ok (h.set a { n with right := p })
  | none => .error .nullDeref

/-- The fields of a `SearchingTree` object (the random engine is an input of `insert`). -/
structure Tree where
  heap : List Node
  root : Option Nat
  leftest : Option Nat
  rightest : Option Nat
  reserved : Nat
  deriving DecidableEq, Repr

/-- The fields of a `SearchingTree::Iterator`: the current node and the stack of parents
(top of the stack first).  The cached pair `p` is determined by `v`. -/
structure Iterator where
  v : Nat
  parents : List Nat
  deriving DecidableEq, Repr

/-! ## split and merge -/

/-- `SearchingTree::split`. -/
def split : Nat → List Node → Option Nat → Int → Except Err (List Node × Option Nat × Option Nat)
  | _, h, none, _ => .ok (h, none, none)
  | 0, _, some _, _ => .error .fuel
  | f + 1, h, some a, k =>
    match deref h (some a) with
    | .error e => .error e
    | .ok n =>
      if k > n.key then
        match split f h n.right k with
        | .error e => .error e
        | .ok (h1, p1, p2) =>
          match setRight h1 a p1 with
          | .error e => .error e
          | .ok h2 => .ok (h2, some a, p2)
      else
        match split f h n.left k with
        | .error e => .error e
        | .ok (h1, p1, p2) =>
          match setLeft h1 a p2 with
          | .error e => .error e
          | .ok h2 => .ok (h2, p1, some a)

/-- `SearchingTree::merge`. -/
def merge : Nat → List Node → Option Nat → Option Nat → Except Err (List Node × Option Nat)
  | _, h, l, none => .ok (h, l)
  | _, h, none, some r => .ok (h, some r)
  | 0, _, some _, some _ => .error .fuel
  | f + 1, h, some l, some r =>
    match deref h (some l), deref h (some r) with
    | .error e, _ => .error e
    | .ok _, .error e => .error e
    | .ok nl, .ok nr =>
      if nl.priority > nr.priority then
        match merge f h nl.right (some r) with
        | .error e => .error e
        | .ok (h1, x) =>
          match setRight h1 l x with
          | .error e => .error e
          | .ok h2 => .ok (h2, some l)
      else
        match merge f h (some l) nr.left with
        | .error e => .error e
        | .ok (h1, x) =>
          match setLeft h1 r x with
          | .error e => .error e
          | .ok h2 => .ok (h2, some r)

/-- The loop `while (v->left != nullptr) v = v->left;`. -/
def leftmost : Nat → List Node → Nat → Except Err Nat
  | 0, _, _ => .error .fuel
  | f + 1, h, a =>
    match deref h (some a) with
    | .error e => .error e
    | .ok n =>
      match n.left with
      | none => .ok a
      | some c => leftmost f h c

/-- The loop `while (v->right != nullptr) v = v->right;`. -/
def rightmost : Nat → List Node → Nat → Except Err Nat
  | 0, _, _ => .error .fuel
  | f + 1, h, a =>
    match deref h (some a) with
    | .error e => .error e
    | .ok n =>
      match n.right with
      | none => .ok a
      | some c => rightmost f h c

/-- `SearchingTree::updateBounds`. -/
def updateBounds (fuel : Nat) (s : Tree) : Except Err Tree :=
  match s.root with
  | none => .ok { s with leftest := none, rightest := none }
  | some r =>
    match leftmost fuel s.heap r with
    | .error e => .error e
    | .ok lo =>
      match rightmost fuel s.heap r with
      | .error e => .error e
      | .ok hi => .ok { s with leftest := some lo, rightest := some hi }

/-! ## Cursors -/

/-- The loop of the `Iterator` constructor: walk from `cur` towards the node `n`, comparing
`n`'s key with the key of each visited node and pushing every visited node. -/
def walkTo : Nat → List Node → Nat → Int → Option Nat → List Nat → Except Err (List Nat)
  | 0, _, _, _, _, _ => .error .fuel
  | f + 1, h, n, nkey, cur, ps =>
    if cur = some n then .ok ps
    else
      match cur with
      | none => .error .nullDeref
      | some c =>
        match deref h (some c) with
        | .error e => .error e
        | .ok nc =>
          if nkey < nc.key then walkTo f h n nkey nc.left (c :: ps)
          else walkTo f h n nkey nc.right (c :: ps)

/-- `Iterator::Iterator(const std::shared_ptr<Node> &n, const SearchingTree *st)`. -/
def Iterator.create (fuel : Nat) (s : Tree) (n : Option Nat) : Except Err Iterator :=
  match n, deref s.heap n with
  | none, _ => .error .nullDeref
  | some _, .error e => .error e
  | some a, .ok nn =>
    if a = s.reserved then .ok ⟨a, []⟩
    else
      match walkTo fuel s.heap a nn.key s.root [] with
      | .error e => .error e
      | .ok ps => .ok ⟨a, ps⟩

/-- `Iterator::operator==`. -/
def Iterator.eq (a b : Iterator) : Bool := a.v == b.v

/-- The `while (true)` loop of `Iterator::operator++`: pop parents until one is reached
through its left child.  `parents.top()` on an empty stack is undefined behaviour. -/
def climb : Nat → List Node → Nat → List Nat → Except Err (Nat × List Nat)
  | 0, _, _, _ => .error .fuel
  | _ + 1, _, _, [] => .error .emptyStack
  | f + 1, h, prev, c :: ps =>
    match deref h (some c) with
    | .error e => .error e
    | .ok nc => if nc.left = some prev then .ok (c, ps) else climb f h c ps

/-- `Iterator::operator++()` (prefix). -/
def Iterator.next (fuel : Nat) (s : Tree) (it : Iterator) : Except Err Iterator :=
  if it.v = s.reserved then .error .outOfRange
  else
    match deref s.heap (some it.v) with
    | .error e => .error e
    | .ok n =>
      match n.right with
      | none =>
        match climb fuel s.heap it.v it.parents with
        | .error e => .error e
        | .ok (c, ps) => .ok ⟨c, ps⟩
      | some r =>
        match leftmost fuel s.heap r with
        | .error e => .error e
        | .ok c => .ok ⟨c, it.v :: it.parents⟩

/-- `Iterator::operator*`: the key and the value of the current node. -/
def Iterator.get (s : Tree) (it : Iterator) : Except Err (Int × Int) :=
  match deref s.heap (some it.v) with
  | .error e => .error e
  | .ok n => .ok (n.key, n.value)

/-! ## The public operations -/

/-- `SearchingTree::SearchingTree()`. -/
def empty : Tree := ⟨[Node.fresh], none, none, none, 0⟩

/-- `SearchingTree::end`. -/
def Tree.end (fuel : Nat) (s : Tree) : Except Err Iterator :=
  Iterator.create fuel s (some s.reserved)

/-- `SearchingTree::begin`. -/
def Tree.begin (fuel : Nat) (s : Tree) : Except Err Iterator :=
  match s.root with
  | some _ => Iterator.create fuel s s.leftest
  | none => s.end fuel

/-- The descent loop of `find`: `none` stands for the early `return Iterator(reserved, this)`. -/
def findLoop : Nat → List Node → Nat → Int → Except Err (Option Nat)
  | 0, _, _, _ => .error .fuel
  | f + 1, h, cur, key =>
    match deref h (some cur) with
    | .error e => .error e
    | .ok n =>
      if n.key ≠ key then
        match (if key < n.key then n.left else n.right) with
        | none => .ok none
        | some c => findLoop f h c key
      else .ok (some cur)

/-- `SearchingTree::find`. -/
def Tree.find (fuel : Nat) (s : Tree) (key : Int) : Except Err Iterator :=
  match s.root with
  | none => Iterator.create fuel s (some s.reserved)
  | some r =>
    match findLoop fuel s.heap r key with
    | .error e => .error e
    | .ok none => Iterator.create fuel s (some s.reserved)
    | .ok (some cur) => Iterator.create fuel s (some cur)

/-- The descent loop of `lower_bound`: the node at which the loop returns, and whether the
cursor built there is stepped forward once before it is returned. -/
def lowerLoop : Nat → List Node → Nat → Int → Except Err (Nat × Bool)
  | 0, _, _, _ => .error .fuel
  | f + 1, h, cur, key =>
    match deref h (some cur) with
    | .error e => .error e
    | .ok n =>
      if n.key ≠ key then
        if key < n.key then
          match n.left with
          | some c => lowerLoop f h c key
          | none => .ok (cur, false)
        else
          match n.right with
          | some c => lowerLoop f h c key
          | none => .ok (cur, true)
      else .ok (cur, false)

/-- `SearchingTree::lower_bound`. -/
def Tree.lower_bound (fuel : Nat) (s : Tree) (key : Int) : Except Err Iterator :=
  match s.root with
  | none => Iterator.create fuel s (some s.reserved)
  | some r =>
    match lowerLoop fuel s.heap r key with
    | .error e => .error e
    | .ok (cur, false) => Iterator.create fuel s (some cur)
    | .ok (cur, true) =>
      match Iterator.create fuel s (some cur) with
      | .error e => .error e
      | .ok it => it.next fuel s

/-- The loop of `range`: `while (it != end() && it->first < r) { push_back(*it); ++it; }`. -/
def rangeLoop : Nat → Nat → Tree → Iterator → Int → List (Int × Int) → Except Err (List (Int × Int))
  | 0, _, _, _, _, _ => .error .fuel
  | f + 1, fuel, s, it, r, acc =>
    match s.end fuel with
    | .error e => .error e
    | .ok e =>
      if it.eq e then .ok acc
      else
        match it.get s with
        | .error e => .error e
        | .ok kv =>
          if kv.1 < r then
            match it.next fuel s with
            | .error e => .error e
            | .ok it2 => rangeLoop f fuel s it2 r (acc ++ [kv])
          else .ok acc

/-- `SearchingTree::range`. -/
def Tree.range (fuel : Nat) (s : Tree) (l r : Int) : Except Err (List (Int × Int)) :=
  match s.lower_bound fuel l with
  | .error e => .error e
  | .ok it => rangeLoop fuel fuel s it r []

/-- `SearchingTree::insert`; `drawn` is the value `engine()` returns.  The call
`split(root, key)` converts the key to the parameter `int k` of `split`. -/
def Tree.insert (fuel : Nat) (s : Tree) (key value : Int) (drawn : Nat) : Except Err Tree :=
  match s.find fuel key, s.end fuel with
  | .error e, _ => .error e
  | .ok _, .error e => .error e
  | .ok it, .ok e =>
    if !(it.eq e) then .ok s
    else
      match split fuel s.heap s.root (keyToInt key) with
      | .error e => .error e
      | .ok (h1, p1, p2) =>
        match h1[s.reserved]? with
        | none => .error .nullDeref
        | some n =>
          let h2 := h1.set s.reserved
            { n with key := key, value := value, priority := toInt32 drawn }
          let h3 := h2 ++ [Node.fresh]
          match merge fuel h3 p1 (some s.reserved) with
          | .error e => .error e
          | .ok (h4, q1) =>
            match merge fuel h4 q1 p2 with
            | .error e => .error e
            | .ok (h5, q2) =>
              updateBounds fuel
                { s with heap := h5, root := q2, reserved := h2.length }

/-- The descent loop of `erase`: `while (v->key != key) ...`. -/
def locate : Nat → List Node → Option Nat → Int → Except Err Nat
  | 0, _, _, _ => .error .fuel
  | _ + 1, _, none, _ => .error .nullDeref
  | f + 1, h, some v, key =>
    match deref h (some v) with
    | .error e => .error e
    | .ok n =>
      if n.key ≠ key then
        if key < n.key then locate f h n.left key else locate f h n.right key
      else .ok v

/-- `SearchingTree::erase`. -/
def Tree.erase (fuel : Nat) (s : Tree) (key : Int) : Except Err Tree :=
  match s.find fuel key, s.end fuel with
  | .error e, _ => .error e
  | .ok _, .error e => .error e
  | .ok it, .ok e =>
    if it.eq e then .ok s
    else
      match locate fuel s.heap s.root key with
      | .error e => .error e
      | .ok v =>
        match deref s.heap (some v) with
        | .error e => .error e
        | .ok nv =>
          match merge fuel s.heap nv.left nv.right with
          | .error e => .error e
          | .ok (h1, _) => updateBounds fuel { s with heap := h1 }

/-! ## Several containers in one store

A move involves two `SearchingTree` objects whose nodes live in the same store.  `Obj`
holds the pointer members of one object; `Obj.tree` views it as a container over a store.

The copy constructor and the copy assignment have no embedding: both call
`recursiveCopy`, which assigns to `v2->left->parent` and `v2->right->parent`, and `Node`
declares no member `parent`, so neither can be instantiated. -/

/-- The pointer members of one `SearchingTree` object. -/
structure Obj where
  root : Option Nat
  leftest : Option Nat
  rightest : Option Nat
  reserved : Nat
  deriving DecidableEq, Repr

/-- The container formed by the members `o` over the store `h`. -/
def Obj.tree (o : Obj) (h : List Node) : Tree := ⟨h, o.root, o.leftest, o.rightest, o.reserved⟩

/-- The pointer members of a container. -/
def Tree.obj (s : Tree) : Obj := ⟨s.root, s.leftest, s.rightest, s.reserved⟩

/-- `SearchingTree::SearchingTree()` in a store that already holds nodes: the sentinel is
allocated at the end of the store. -/
def construct (h : List Node) : List Node × Obj :=
  (h ++ [Node.fresh], ⟨none, none, none, h.length⟩)

/-- `SearchingTree::SearchingTree(SearchingTree &&st)`: the members of the new object and
the members of `st` afterwards.  The four pointers are copied; no statement writes a
member of `st` or a node. -/
def moveConstruct (st : Obj) : Obj × Obj :=
  (⟨st.root, st.leftest, st.rightest, st.reserved⟩, st)

/-- `SearchingTree::operator=(SearchingTree &&st)`: the members of `*this` and of `st`
afterwards.  The four pointers are copied over the members of `*this`; no statement
writes a member of `st` or a node.  (For `this == &st` the body is skipped, which gives
the same result.) -/
def moveAssign (_this st : Obj) : Obj × Obj :=
  (⟨st.root, st.leftest, st.rightest, st.reserved⟩, st)

/-! ## `operator++` with the state it leaves -/

/-- The `while (true)` loop of `Iterator::operator++` with the stack of parents it
leaves: entries are popped one by one, also on the way to a failure. -/
def climbState : Nat → List Node → Nat → List Nat → List Nat × Except Err Nat
  | 0, _, _, ps => (ps, .error .fuel)
  | _ + 1, _, _, [] => ([], .error .emptyStack)
  | f + 1, h, prev, c :: ps =>
    match deref h (some c) with
    | .error e => (ps, .error e)
    | .ok nc => if nc.left = some prev then (ps, .ok c) else climbState f h c ps

/-- `Iterator::operator++()` as a transformer of the cursor: the members `v` and `parents`
when the call ends, and how it ends.  `throw` is the first statement that can end the
call and precedes every write; `v` is written by the last statement only. -/
def Iterator.step (fuel : Nat) (s : Tree) (it : Iterator) : Iterator × Except Err Unit :=
  if it.v = s.reserved then (it, .error .outOfRange)
  else
    match deref s.heap (some it.v) with
    | .error e => (it, .error e)
    | .ok n =>
      match n.right with
      | none =>
        match climbState fuel s.heap it.v it.parents with
        | (ps, .error e) => (⟨it.v, ps⟩, .error e)
        | (ps, .ok c) => (⟨c, ps⟩, .ok ())
      | some r =>
        match leftmost fuel s.heap r with
        | .error e => (⟨it.v, it.v :: it.parents⟩, .error e)
        | .ok c => (⟨c, it.v :: it.parents⟩, .ok ())

/-! ## Abstract shape of a store region

`PTree` is the unfolding of the pointer graph below a pointer: every node carries its
address.  `Models h t` says that the store `h` holds exactly this unfolding at the
addresses of `t`; the pointer to the unfolding is `t.ptr`. -/

/-- A binary tree of nodes, each with its address, key, value and priority. -/
inductive PTree where
  | nil : PTree
  | node (a : Nat) (l : PTree) (key value priority : Int) (r : PTree) : PTree
  deriving DecidableEq, Repr

namespace PTree

/-- The pointer to the root of the tree. -/
def ptr : PTree → Option Nat
  | nil => none
  | node a _ _ _ _ _ => some a

/-- Addresses of the nodes, in order. -/
def addrs : PTree → List Nat
  | nil => []
  | node a l _ _ _ r => l.addrs ++ a :: r.addrs

/-- Keys of the nodes, in order. -/
def keys : PTree → List Int
  | nil => []
  | node _ l k _ _ r => l.keys ++ k :: r.keys

/-- The in-order sequence of (key, value) entries. -/
def entries : PTree → List (Int × Int)
  | nil => []
  | node _ l k v _ r => l.entries ++ (k, v) :: r.entries

/-- The in-order sequence of (key, value, priority) triples. -/
def items : PTree → List (Int × Int × Int)
  | nil => []
  | node _ l k v p r => l.items ++ (k, v, p) :: r.items

/-- The in-order sequence of stored cells: address, key, value and priority. -/
def cells : PTree → List (Nat × Int × Int × Int)
  | nil => []
  | node a l k v p r => l.cells ++ (a, k, v, p) :: r.cells

/-- Number of nodes. -/
def size : PTree → Nat
  | nil => 0
  | node _ l _ _ _ r => l.size + 1 + r.size

/-- The BST invariant: every key of the left subtree is smaller than the key of the node,
every key of the right subtree is larger. -/
def BST : PTree → Prop
  | nil => True
  | node _ l k _ _ r => (∀ x ∈ l.keys, x < k) ∧ (∀ x ∈ r.keys, k < x) ∧ l.BST ∧ r.BST

/-- Priority of the root, when there is one. -/
def prio : PTree → Option Int
  | nil => none
  | node _ _ _ _ p _ => some p

/-- The heap invariant: the priority of a node is at least the priority of each child. -/
def HeapOrdered : PTree → Prop
  | nil => True
  | node _ l _ _ p r =>
    (∀ q ∈ l.prio, q ≤ p) ∧ (∀ q ∈ r.prio, q ≤ p) ∧ l.HeapOrdered ∧ r.HeapOrdered

/-- What `split` computes, on the unfolding. -/
def split : PTree → Int → PTree × PTree
  | nil, _ => (nil, nil)
  | node a l k v p r, x =>
    if x > k then ((node a l k v p (r.split x).1), (r.split x).2)
    else ((l.split x).1, node a (l.split x).2 k v p r)

/-- What `merge` computes, on the unfolding. -/
def merge : PTree → PTree → PTree
  | l, nil => l
  | nil, node a l k v p r => node a l k v p r
  | node a l k v p r, node a2 l2 k2 v2 p2 r2 =>
    if p > p2 then node a l k v p (merge r (node a2 l2 k2 v2 p2 r2))
    else node a2 (merge (node a l k v p r) l2) k2 v2 p2 r2
termination_by l r => l.size + r.size
decreasing_by
  all_goals simp_wf
  all_goals simp only [size]
  all_goals omega

/-- The address `find` reaches by BST descent for the key `x`. -/
def lookup : PTree → Int → Option Nat
  | nil, _ => none
  | node a l k _ _ r, x =>
    if k ≠ x then (if x < k then l.lookup x else r.lookup x) else some a

/-- The nodes met by BST descent before the node with key `x`, pushed on `acc`: the stack
of parents the `Iterator` constructor builds. -/
def chain : PTree → Int → List Nat → List Nat
  | nil, _, acc => acc
  | node a l k _ _ r, x, acc =>
    if k = x then acc else if x < k then l.chain x (a :: acc) else r.chain x (a :: acc)

end PTree

/-- The store `h` holds the tree `t`: each node of `t` is stored at its address with the
pointers to its two subtrees. -/
def Models (h : List Node) : PTree → Prop
  | .nil => True
  | .node a l k v p r => h[a]? = some ⟨k, v, p, l.ptr, r.ptr⟩ ∧ Models h l ∧ Models h r

/-- The state `s` is a well-formed container holding the tree `t`: the root points to
an unfolding stored at pairwise distinct addresses, and the sentinel is a stored node
without children that is not a node of the tree. -/
structure Shape (s : Tree) (t : PTree) : Prop where
  root : s.root = t.ptr
  models : Models s.heap t
  nodup : t.addrs.Nodup
  sentinel : ∃ n, s.heap[s.reserved]? = some n ∧ n.left = none ∧ n.right = none
  apart : s.reserved ∉ t.addrs

/-- A node reachable from the root by following child pointers. -/
inductive Reach (s : Tree) : Nat → Prop where
  | root {a : Nat} : s.root = some a → Reach s a
  | left {a c : Nat} {n : Node} : Reach s a → s.heap[a]? = some n → n.left = some c → Reach s c
  | right {a c : Nat} {n : Node} : Reach s a → s.heap[a]? = some n → n.right = some c → Reach s c

/-- States the public mutators produce from the empty container. -/
inductive Reachable : Tree → Prop where
  | empty : Reachable empty
  | insert {s s2 : Tree} (fuel : Nat) (key value : Int) (drawn : Nat) :
      Reachable s → s.insert fuel key value drawn = .ok s2 → Reachable s2
  | erase {s s2 : Tree} (fuel : Nat) (key : Int) :
      Reachable s → s.erase fuel key = .ok s2 → Reachable s2

/-- The tree `insert` builds: the two parts of the split at `c` with the new node between
them. -/
def PTree.inserted (t : PTree) (c : Int) (a : Nat) (k v p : Int) : PTree :=
  (((t.split c).1).merge (.node a .nil k v p .nil)).merge (t.split c).2

/-! ## Invariants of the raw pointer graph

After `erase` the graph below the root need not be a tree, so the heap invariant is
stated on the store itself. -/

/-- Every child pointer stored in `h` refers to a stored node, other than the sentinel
`res`, whose priority is at most the priority of the parent. -/
def EdgeOk (h : List Node) (res : Nat) : Prop :=
  ∀ (a : Nat) (n : Node), h[a]? = some n → ∀ c : Nat, (n.left = some c ∨ n.right = some c) →
    c ≠ res ∧ ∃ m : Node, h[c]? = some m ∧ m.priority ≤ n.priority

/-- The pointer `p` is null or refers to a stored node, other than the sentinel `res`, of
priority at most `B`. -/
def Bounded (h : List Node) (res : Nat) (B : Int) (p : Option Nat) : Prop :=
  ∀ a : Nat, p = some a → a ≠ res ∧ ∃ n : Node, h[a]? = some n ∧ n.priority ≤ B

/-- The store `h2` has the nodes of `h`, with the same priorities. -/
def SamePrio (h h2 : List Node) : Prop :=
  h2.length = h.length ∧
    ∀ (a : Nat) (n : Node), h[a]? = some n → ∃ n2 : Node, h2[a]? = some n2 ∧ n2.priority = n.priority

/-- The invariant of the container that every public mutator keeps: all edges of the
store are heap-ordered, the root is a stored node other than the sentinel, and the
sentinel is a stored node without children. -/
structure Inv (s : Tree) : Prop where
  edges : EdgeOk s.heap s.reserved
  root : ∀ a : Nat, s.root = some a → a ≠ s.reserved ∧ ∃ n : Node, s.heap[a]? = some n
  sentinel : ∃ n, s.heap[s.reserved]? = some n ∧ n.left = none ∧ n.right = none

/-- The strict heap invariant: the priority of a node is greater than the priority of each
child. -/
def PTree.StrictHeap : PTree → Prop
  | .nil => True
  | .node _ l _ _ p r =>
    (∀ q ∈ l.prio, q < p) ∧ (∀ q ∈ r.prio, q < p) ∧ l.StrictHeap ∧ r.StrictHeap

/-- The node (address and key) of the smallest key greater than `x`, found by BST descent;
`cand` is the last node at which the descent went left. -/
def PTree.above : PTree → Int → Option (Nat × Int) → Option (Nat × Int)
  | .nil, _, cand => cand
  | .node a l k _ _ r, x, cand => if x < k then l.above x (some (a, k)) else r.above x cand

/-- The tree with every address replaced by 0: the shape and the key, value and priority
at every position. -/
def PTree.strip : PTree → PTree
  | .nil => .nil
  | .node _ l k v p r => .node 0 l.strip k v p r.strip

/-- A sequence of `insert` calls; an item is the key, the value and the number the engine
draws for the call. -/
def insertAll (fuel : Nat) : Tree → List (Int × Int × Nat) → Except Err Tree
  | s, [] => .ok s
  | s, (k, v, d) :: xs =>
    match s.insert fuel k v d with
    | .error e => .error e
    | .ok s2 => insertAll fuel s2 xs

/-- The triple an item of `insertAll` stores: key, value and priority. -/
def stored (e : Int × Int × Nat) : Int × Int × Int := (e.1, e.2.1, toInt32 e.2.2)

/-! ## Concrete containers -/

/-- The container after `insert(1, 0)` on the empty container (drawn priority 0). -/
def single : Tree := ⟨[⟨1, 0, 0, none, none⟩, Node.fresh], some 0, some 0, some 0, 1⟩

/-- The unfolding of `single`. -/
def singleTree : PTree := .node 0 .nil 1 0 0 .nil

/-- The container after the inserts of the keys 10, 1, 5, 3 (value 0) with the drawn
priorities 100, 90, 80, 70: the root 10 has the left child 1, whose right child 5 has the
left child 3. -/
def zigzag : Tree :=
  ⟨[⟨10, 0, 100, some 1, none⟩, ⟨1, 0, 90, none, some 2⟩, ⟨5, 0, 80, some 3, none⟩,
    ⟨3, 0, 70, none, none⟩, Node.fresh], some 0, some 1, some 0, 4⟩

/-- The unfolding of `zigzag`. -/
def zigzagTree : PTree :=
  .node 0 (.node 1 .nil 1 0 90 (.node 2 (.node 3 .nil 3 0 70 .nil) 5 0 80 .nil)) 10 0 100 .nil

/-- The container after the inserts of the keys 2, 1, 3 with the drawn priorities 10, 5, 5:
the root 2 with the children 1 and 3. -/
def triple : Tree :=
  ⟨[⟨2, 0, 10, some 1, some 2⟩, ⟨1, 0, 5, none, none⟩, ⟨3, 0, 5, none, none⟩, Node.fresh],
    some 0, some 1, some 2, 3⟩

/-- The unfolding of `triple`. -/
def tripleTree : PTree :=
  .node 0 (.node 1 .nil 1 0 5 .nil) 2 0 10 (.node 2 .nil 3 0 5 .nil)

/-- The container `erase(2)` leaves from `triple`: the node of key 1 is now also the left
child of the node of key 3. -/
def tangled : Tree :=
  ⟨[⟨2, 0, 10, some 1, some 2⟩, ⟨1, 0, 5, none, none⟩, ⟨3, 0, 5, some 1, none⟩, Node.fresh],
    some 0, some 1, some 2, 3⟩

/-- The unfolding of `tangled`. -/
def tangledTree : PTree :=
  .node 0 (.node 1 .nil 1 0 5 .nil) 2 0 10 (.node 2 (.node 1 .nil 1 0 5 .nil) 3 0 5 .nil)

/-- The store of `single` after a second container has been constructed in it: node 0
holds the entry (1, 0), node 1 is the sentinel of the first container, node 2 the
sentinel of the second. -/
def twoStore : List Node := (construct single.heap).1

/-- The members of the second, empty container of `twoStore`. -/
def second : Obj := (construct single.heap).2

/-- The container after `insert(10, 0)` on the empty container (drawn priority 100). -/
def ten : Tree := ⟨[⟨10, 0, 100, none, none⟩, Node.fresh], some 0, some 0, some 0, 1⟩

/-- The unfolding of `ten`. -/
def tenTree : PTree := .node 0 .nil 10 0 100 .nil

/-- The container `insert(4294967301, 0)` (drawn priority 90) leaves from `ten`: the new
node is the left child of the node of key 10. -/
def wide : Tree :=
  ⟨[⟨10, 0, 100, some 1, none⟩, ⟨4294967301, 0, 90, none, none⟩, Node.fresh],
    some 0, some 1, some 0, 2⟩

/-- The unfolding of `wide`. -/
def wideTree : PTree := .node 0 (.node 1 .nil 4294967301 0 90 .nil) 10 0 100 .nil

/-- The container after `insert(4294967301, 0)` and then `insert(10, 0)` on the empty
container (drawn priorities 90 and 100): the node of key 4294967301 is the right child of
the node of key 10. -/
def wideRev : Tree :=
  ⟨[⟨4294967301, 0, 90, none, none⟩, ⟨10, 0, 100, none, some 0⟩, Node.fresh],
    some 1, some 1, some 0, 2⟩

/-- The unfolding of `wideRev`. -/
def wideRevTree : PTree := .node 1 .nil 10 0 100 (.node 0 .nil 4294967301 0 90 .nil)

/-! # Lemmas -/

/-! ## Store lemmas -/

@[simp] theorem PTree.ptr_nil : PTree.nil.ptr = none := rfl

@[simp] theorem PTree.ptr_node (a : Nat) (l : PTree) (k v p : Int) (r : PTree) :
    (PTree.node a l k v p r).ptr = some a := rfl

theorem deref_some_iff {h : List Node} {a : Nat} {n : Node} :
    deref h (some a) = .ok n ↔ h[a]? = some n := by
  unfold deref
  cases hq : h[a]? <;> simp [hq]

theorem deref_of_get {h : List Node} {a : Nat} {n : Node} (hq : h[a]? = some n) :
    deref h (some a) = .ok n := deref_some_iff.2 hq

theorem setLeft_of_get {h : List Node} {a : Nat} {n : Node} (hq : h[a]? = some n)
    (p : Option Nat) : setLeft h a p = .ok (h.set a { n with left := p }) := by
  simp [setLeft, hq]

theorem setRight_of_get {h : List Node} {a : Nat} {n : Node} (hq : h[a]? = some n)
    (p : Option Nat) : setRight h a p = .ok (h.set a { n with right := p }) := by
  simp [setRight, hq]

theorem get_set_self {h : List Node} {a : Nat} {n m : Node} (hq : h[a]? = some n) :
    (h.set a m)[a]? = some m := by
  have hlt : a < h.length := by
    rcases List.getElem?_eq_some.1 hq with ⟨hl, _⟩
    exact hl
  simp [hlt]

theorem get_set_other {h : List Node} {a x : Nat} (m : Node) (hne : x ≠ a) :
    (h.set a m)[x]? = h[x]? := by
  simp [List.getElem?_set_ne (Ne.symm hne)]

theorem get_set_of_mem {h : List Node} {a x : Nat} (m : Node) {L : List Nat}
    (hx : x ∈ L) (ha : a ∉ L) : (h.set a m)[x]? = h[x]? :=
  get_set_other m (fun e => ha (e ▸ hx))

theorem Models.frame {h h2 : List Node} : ∀ {t : PTree}, Models h t →
    (∀ x ∈ t.addrs, h2[x]? = h[x]?) → Models h2 t
  | .nil, _, _ => trivial
  | .node a l k v p r, hm, hf => by
    obtain ⟨ha, hl, hr⟩ := hm
    refine ⟨?_, Models.frame hl ?_, Models.frame hr ?_⟩
    · rw [hf a (by simp [PTree.addrs])]; exact ha
    · intro x hx; exact hf x (by simp [PTree.addrs, hx])
    · intro x hx; exact hf x (by simp [PTree.addrs, hx])

/-! ## Pure lemmas on `PTree.split` -/

namespace PTree

theorem split_addrs (x : Int) : ∀ t : PTree,
    (t.split x).1.addrs ++ (t.split x).2.addrs = t.addrs
  | nil => by simp [split, addrs]
  | node a l k v p r => by
    by_cases hk : x > k
    · simp [split, hk, addrs, ← split_addrs x r]
    · simp [split, hk, addrs, ← split_addrs x l]

theorem split_items (x : Int) : ∀ t : PTree,
    (t.split x).1.items ++ (t.split x).2.items = t.items
  | nil => by simp [split, items]
  | node a l k v p r => by
    by_cases hk : x > k
    · simp [split, hk, items, ← split_items x r]
    · simp [split, hk, items, ← split_items x l]

theorem split_keys (x : Int) : ∀ t : PTree,
    (t.split x).1.keys ++ (t.split x).2.keys = t.keys
  | nil => by simp [split, keys]
  | node a l k v p r => by
    by_cases hk : x > k
    · simp [split, hk, keys, ← split_keys x r]
    · simp [split, hk, keys, ← split_keys x l]

theorem split_size (x : Int) : ∀ t : PTree,
    (t.split x).1.size + (t.split x).2.size = t.size
  | nil => by simp [split, size]
  | node a l k v p r => by
    by_cases hk : x > k
    · have := split_size x r
      simp [split, hk, size]; omega
    · have := split_size x l
      simp [split, hk, size]; omega

theorem mem_split_fst_addrs {x : Int} {t : PTree} {a : Nat}
    (h : a ∈ (t.split x).1.addrs) : a ∈ t.addrs := by
  rw [← split_addrs x t]; exact List.mem_append_left _ h

theorem mem_split_snd_addrs {x : Int} {t : PTree} {a : Nat}
    (h : a ∈ (t.split x).2.addrs) : a ∈ t.addrs := by
  rw [← split_addrs x t]; exact List.mem_append_right _ h

end PTree

/-! ## `split` on the store computes `PTree.split` -/

theorem split_models (k : Int) : ∀ (t : PTree) (fuel : Nat) (h : List Node),
    Models h t → t.addrs.Nodup → t.size ≤ fuel →
    ∃ h2, split fuel h t.ptr k = .ok (h2, (t.split k).1.ptr, (t.split k).2.ptr) ∧
      Models h2 (t.split k).1 ∧ Models h2 (t.split k).2 ∧
      h2.length = h.length ∧ ∀ x, x ∉ t.addrs → h2[x]? = h[x]?
  | .nil, fuel, h, _, _, _ => by
    refine ⟨h, ?_, trivial, trivial, rfl, fun _ _ => rfl⟩
    cases fuel <;> simp [split, PTree.split]
  | .node a l key v p r, fuel, h, hm, hnd, hf => by
    obtain ⟨ha, hl, hr⟩ := hm
    cases fuel with
    | zero => simp [PTree.size] at hf
    | succ f =>
      simp only [PTree.addrs] at hnd
      have hndl : l.addrs.Nodup := (List.nodup_append.1 hnd).1
      have hndr : r.addrs.Nodup := ((List.nodup_cons.1 (List.nodup_append.1 hnd).2.1)).2
      have hal : a ∉ l.addrs := fun hx =>
        (List.nodup_append.1 hnd).2.2 hx (List.mem_cons_self _ _)
      have har : a ∉ r.addrs := (List.nodup_cons.1 (List.nodup_append.1 hnd).2.1).1
      have hlr : ∀ x ∈ l.addrs, x ∉ r.addrs := fun x hx hx2 =>
        (List.nodup_append.1 hnd).2.2 hx (List.mem_cons_of_mem _ hx2)
      simp only [PTree.size] at hf
      by_cases hk : k > key
      · obtain ⟨h1, hs, hm1, hm2, hlen, hfr⟩ := split_models k r f h hr hndr (by omega)
        have ha1 : h1[a]? = some ⟨key, v, p, l.ptr, r.ptr⟩ := by rw [hfr a har]; exact ha
        refine ⟨h1.set a ⟨key, v, p, l.ptr, (r.split k).1.ptr⟩, ?_, ?_, ?_, ?_, ?_⟩
        · simp [split, PTree.split, deref_of_get ha, hk, hs, setRight_of_get ha1]
        · simp only [PTree.split, hk, if_true]
          refine ⟨get_set_self ha1, Models.frame hl ?_, Models.frame hm1 ?_⟩
          · intro x hx
            rw [get_set_of_mem _ hx hal, hfr x (hlr x hx)]
          · intro x hx
            rw [get_set_of_mem _ (PTree.mem_split_fst_addrs hx) har]
        · simp only [PTree.split, hk, if_true]
          refine Models.frame hm2 ?_
          intro x hx
          rw [get_set_of_mem _ (PTree.mem_split_snd_addrs hx) har]
        · simp [hlen]
        · intro x hx
          simp only [PTree.addrs, List.mem_append, List.mem_cons, not_or] at hx
          rw [get_set_other _ hx.2.1, hfr x hx.2.2]
      · obtain ⟨h1, hs, hm1, hm2, hlen, hfr⟩ := split_models k l f h hl hndl (by omega)
        have ha1 : h1[a]? = some ⟨key, v, p, l.ptr, r.ptr⟩ := by rw [hfr a hal]; exact ha
        refine ⟨h1.set a ⟨key, v, p, (l.split k).2.ptr, r.ptr⟩, ?_, ?_, ?_, ?_, ?_⟩
        · simp [split, PTree.split, deref_of_get ha, hk, hs, setLeft_of_get ha1]
        · simp only [PTree.split, hk, if_false]
          refine Models.frame hm1 ?_
          intro x hx
          rw [get_set_of_mem _ (PTree.mem_split_fst_addrs hx) hal]
        · simp only [PTree.split, hk, if_false]
          refine ⟨get_set_self ha1, Models.frame hm2 ?_, Models.frame hr ?_⟩
          · intro x hx
            rw [get_set_of_mem _ (PTree.mem_split_snd_addrs hx) hal]
          · intro x hx
            rw [get_set_of_mem _ hx har,
              hfr x (fun hx2 => hlr x hx2 hx)]
        · simp [hlen]
        · intro x hx
          simp only [PTree.addrs, List.mem_append, List.mem_cons, not_or] at hx
          rw [get_set_other _ hx.2.1, hfr x hx.1]

/-! ## Pure lemmas on `PTree.merge` -/

namespace PTree

@[simp] theorem merge_nil_right (l : PTree) : l.merge nil = l := by
  cases l <;> simp [merge]

@[simp] theorem merge_nil_left (r : PTree) : nil.merge r = r := by
  cases r <;> simp [merge]

theorem merge_node_gt {a : Nat} {l : PTree} {k v p : Int} {r : PTree} {a2 : Nat} {l2 : PTree}
    {k2 v2 p2 : Int} {r2 : PTree} (hp : p > p2) :
    (node a l k v p r).merge (node a2 l2 k2 v2 p2 r2)
      = node a l k v p (r.merge (node a2 l2 k2 v2 p2 r2)) := by
  rw [merge]; simp [hp]

theorem merge_node_le {a : Nat} {l : PTree} {k v p : Int} {r : PTree} {a2 : Nat} {l2 : PTree}
    {k2 v2 p2 : Int} {r2 : PTree} (hp : ¬ p > p2) :
    (node a l k v p r).merge (node a2 l2 k2 v2 p2 r2)
      = node a2 ((node a l k v p r).merge l2) k2 v2 p2 r2 := by
  rw [merge]; simp [hp]

theorem merge_addrs : ∀ (n : Nat) (l r : PTree), l.size + r.size ≤ n →
    (l.merge r).addrs = l.addrs ++ r.addrs
  | _, l, nil, _ => by simp [addrs]
  | _, nil, node a l k v p r, _ => by simp [addrs]
  | 0, node a l k v p r, node a2 l2 k2 v2 p2 r2, hn => by simp [size] at hn
  | n + 1, node a l k v p r, node a2 l2 k2 v2 p2 r2, hn => by
    simp only [size] at hn
    by_cases hp : p > p2
    · rw [merge_node_gt hp]
      simp only [addrs]
      rw [merge_addrs n r (node a2 l2 k2 v2 p2 r2) (by simp only [size]; omega)]
      simp [addrs]
    · rw [merge_node_le hp]
      simp only [addrs]
      rw [merge_addrs n (node a l k v p r) l2 (by simp only [size]; omega)]
      simp [addrs]

theorem merge_items : ∀ (n : Nat) (l r : PTree), l.size + r.size ≤ n →
    (l.merge r).items = l.items ++ r.items
  | _, l, nil, _ => by simp [items]
  | _, nil, node a l k v p r, _ => by simp [items]
  | 0, node a l k v p r, node a2 l2 k2 v2 p2 r2, hn => by simp [size] at hn
  | n + 1, node a l k v p r, node a2 l2 k2 v2 p2 r2, hn => by
    simp only [size] at hn
    by_cases hp : p > p2
    · rw [merge_node_gt hp]
      simp only [items]
      rw [merge_items n r (node a2 l2 k2 v2 p2 r2) (by simp only [size]; omega)]
      simp [items]
    · rw [merge_node_le hp]
      simp only [items]
      rw [merge_items n (node a l k v p r) l2 (by simp only [size]; omega)]
      simp [items]

theorem merge_keys : ∀ (n : Nat) (l r : PTree), l.size + r.size ≤ n →
    (l.merge r).keys = l.keys ++ r.keys
  | _, l, nil, _ => by simp [keys]
  | _, nil, node a l k v p r, _ => by simp [keys]
  | 0, node a l k v p r, node a2 l2 k2 v2 p2 r2, hn => by simp [size] at hn
  | n + 1, node a l k v p r, node a2 l2 k2 v2 p2 r2, hn => by
    simp only [size] at hn
    by_cases hp : p > p2
    · rw [merge_node_gt hp]
      simp only [keys]
      rw [merge_keys n r (node a2 l2 k2 v2 p2 r2) (by simp only [size]; omega)]
      simp [keys]
    · rw [merge_node_le hp]
      simp only [keys]
      rw [merge_keys n (node a l k v p r) l2 (by simp only [size]; omega)]
      simp [keys]

theorem merge_size : ∀ (n : Nat) (l r : PTree), l.size + r.size ≤ n →
    (l.merge r).size = l.size + r.size
  | _, l, nil, _ => by simp [size]
  | _, nil, node a l k v p r, _ => by simp [size]
  | 0, node a l k v p r, node a2 l2 k2 v2 p2 r2, hn => by simp [size] at hn
  | n + 1, node a l k v p r, node a2 l2 k2 v2 p2 r2, hn => by
    simp only [size] at hn
    by_cases hp : p > p2
    · rw [merge_node_gt hp]
      simp only [size]
      rw [merge_size n r (node a2 l2 k2 v2 p2 r2) (by simp only [size]; omega)]
      simp only [size]; omega
    · rw [merge_node_le hp]
      simp only [size]
      rw [merge_size n (node a l k v p r) l2 (by simp only [size]; omega)]
      simp only [size]; omega

end PTree

/-! ## `merge` on the store computes `PTree.merge` -/

theorem merge_models : ∀ (fuel : Nat) (l r : PTree) (h : List Node),
    Models h l → Models h r → (l.addrs ++ r.addrs).Nodup → l.size + r.size ≤ fuel →
    ∃ h2, merge fuel h l.ptr r.ptr = .ok (h2, (l.merge r).ptr) ∧ Models h2 (l.merge r) ∧
      h2.length = h.length ∧ ∀ x, x ∉ l.addrs → x ∉ r.addrs → h2[x]? = h[x]?
  | fuel, l, .nil, h, hl, _, _, _ => by
    refine ⟨h, ?_, by simpa using hl, rfl, fun _ _ _ => rfl⟩
    cases fuel <;> cases l <;> simp [merge]
  | fuel, .nil, .node a l k v p r, h, _, hr, _, _ => by
    refine ⟨h, ?_, by simpa using hr, rfl, fun _ _ _ => rfl⟩
    cases fuel <;> simp [merge]
  | 0, .node a l k v p r, .node a2 l2 k2 v2 p2 r2, _, _, _, _, hf => by
    simp [PTree.size] at hf
  | f + 1, .node a l k v p r, .node a2 l2 k2 v2 p2 r2, h, hl, hr, hnd, hf => by
    have hl0 := hl
    have hr0 := hr
    obtain ⟨ha, hll, hlr⟩ := hl
    obtain ⟨ha2, hrl, hrr⟩ := hr
    simp only [PTree.size] at hf
    simp only [PTree.addrs] at hnd
    have hd := List.nodup_append.1 hnd
    have hdl := List.nodup_append.1 hd.1
    have hdr := List.nodup_append.1 hd.2.1
    by_cases hp : p > p2
    · -- the left root stays on top; its right subtree is merged with the right tree
      have hnd2 : (r.addrs ++ (PTree.node a2 l2 k2 v2 p2 r2).addrs).Nodup := by
        simp only [PTree.addrs]
        refine List.nodup_append.2 ⟨(List.nodup_cons.1 hdl.2.1).2, hd.2.1, ?_⟩
        intro x hx hx2
        exact hd.2.2 (List.mem_append_right _ (List.mem_cons_of_mem _ hx)) hx2
      obtain ⟨h1, hs, hm, hlen, hfr⟩ := merge_models f r (.node a2 l2 k2 v2 p2 r2) h hlr hr0 hnd2
        (by simp only [PTree.size]; omega)
      have har : a ∉ r.addrs := (List.nodup_cons.1 hdl.2.1).1
      have hal : a ∉ l.addrs := fun hx => hdl.2.2 hx (List.mem_cons_self _ _)
      have har2 : a ∉ (PTree.node a2 l2 k2 v2 p2 r2).addrs := fun hx =>
        hd.2.2 (List.mem_append_right _ (List.mem_cons_self _ _)) (by simpa [PTree.addrs] using hx)
      have ha1 : h1[a]? = some ⟨k, v, p, l.ptr, r.ptr⟩ := by rw [hfr a har har2]; exact ha
      have hmem : a ∉ (r.merge (PTree.node a2 l2 k2 v2 p2 r2)).addrs := by
        rw [PTree.merge_addrs _ _ _ le_rfl]
        intro hx
        rcases List.mem_append.1 hx with hx | hx
        · exact har hx
        · exact har2 hx
      refine ⟨h1.set a ⟨k, v, p, l.ptr, (r.merge (.node a2 l2 k2 v2 p2 r2)).ptr⟩, ?_, ?_, ?_, ?_⟩
      · simp only [PTree.ptr_node] at hs ⊢
        simp [merge, deref_of_get ha, deref_of_get ha2, hp, hs, setRight_of_get ha1,
          PTree.merge_node_gt hp]
      · rw [PTree.merge_node_gt hp]
        refine ⟨get_set_self ha1, Models.frame hll ?_, Models.frame hm ?_⟩
        · intro x hx
          rw [get_set_of_mem _ hx hal, hfr x]
          · intro hx2; exact hdl.2.2 hx (List.mem_cons_of_mem _ hx2)
          · intro hx2
            exact hd.2.2 (List.mem_append_left _ hx) (by simpa [PTree.addrs] using hx2)
        · intro x hx
          rw [get_set_of_mem _ hx hmem]
      · simp [hlen]
      · intro x hx hx2
        simp only [PTree.addrs, List.mem_append, List.mem_cons, not_or] at hx
        rw [get_set_other _ hx.2.1, hfr x hx.2.2 hx2]
    · -- the right root stays on top; the left tree is merged with its left subtree
      have hnd2 : ((PTree.node a l k v p r).addrs ++ l2.addrs).Nodup := by
        simp only [PTree.addrs]
        refine List.nodup_append.2 ⟨hd.1, hdr.1, ?_⟩
        intro x hx hx2
        exact hd.2.2 hx (List.mem_append_left _ hx2)
      obtain ⟨h1, hs, hm, hlen, hfr⟩ := merge_models f (.node a l k v p r) l2 h hl0 hrl hnd2
        (by simp only [PTree.size]; omega)
      have har : a2 ∉ r2.addrs := (List.nodup_cons.1 hdr.2.1).1
      have hal : a2 ∉ l2.addrs := fun hx => hdr.2.2 hx (List.mem_cons_self _ _)
      have har2 : a2 ∉ (PTree.node a l k v p r).addrs := fun hx =>
        hd.2.2 (by simpa [PTree.addrs] using hx) (List.mem_append_right _ (List.mem_cons_self _ _))
      have ha1 : h1[a2]? = some ⟨k2, v2, p2, l2.ptr, r2.ptr⟩ := by
        rw [hfr a2 har2 hal]; exact ha2
      have hmem : a2 ∉ ((PTree.node a l k v p r).merge l2).addrs := by
        rw [PTree.merge_addrs _ _ _ le_rfl]
        intro hx
        rcases List.mem_append.1 hx with hx | hx
        · exact har2 hx
        · exact hal hx
      refine ⟨h1.set a2 ⟨k2, v2, p2, ((PTree.node a l k v p r).merge l2).ptr, r2.ptr⟩,
        ?_, ?_, ?_, ?_⟩
      · simp only [PTree.ptr_node] at hs ⊢
        simp [merge, deref_of_get ha, deref_of_get ha2, hp, hs, setLeft_of_get ha1,
          PTree.merge_node_le hp]
      · rw [PTree.merge_node_le hp]
        refine ⟨get_set_self ha1, Models.frame hm ?_, Models.frame hrr ?_⟩
        · intro x hx
          rw [get_set_of_mem _ hx hmem]
        · intro x hx
          rw [get_set_of_mem _ hx har, hfr x]
          · intro hx2
            exact hd.2.2 (by simpa [PTree.addrs] using hx2)
              (List.mem_append_right _ (List.mem_cons_of_mem _ hx))
          · intro hx2; exact hdr.2.2 hx2 (List.mem_cons_of_mem _ hx)
      · simp [hlen]
      · intro x hx hx2
        simp only [PTree.addrs, List.mem_append, List.mem_cons, not_or] at hx2
        rw [get_set_other _ hx2.2.1, hfr x hx hx2.1]

/-! ## The BST invariant under `split` and `merge` -/

namespace PTree

theorem keys_eq_items : ∀ t : PTree, t.keys = t.items.map (fun e => e.1)
  | nil => rfl
  | node _ l k v p r => by simp [keys, items, keys_eq_items l, keys_eq_items r]

theorem entries_eq_items : ∀ t : PTree, t.entries = t.items.map (fun e => (e.1, e.2.1))
  | nil => rfl
  | node _ l k v p r => by simp [entries, items, entries_eq_items l, entries_eq_items r]

theorem length_addrs : ∀ t : PTree, t.addrs.length = t.size
  | nil => rfl
  | node _ l k v p r => by simp [addrs, size, length_addrs l, length_addrs r]; omega

theorem split_bst (x : Int) : ∀ t : PTree, t.BST →
    (t.split x).1.BST ∧ (t.split x).2.BST ∧
      (∀ y ∈ (t.split x).1.keys, y < x) ∧ (∀ y ∈ (t.split x).2.keys, x ≤ y)
  | nil, _ => by simp [split, BST, keys]
  | node a l k v p r, hb => by
    obtain ⟨hl, hr, hbl, hbr⟩ := hb
    by_cases hk : x > k
    · obtain ⟨h1, h2, h3, h4⟩ := split_bst x r hbr
      have hsub : ∀ y ∈ (r.split x).1.keys, y ∈ r.keys := fun y hy => by
        rw [← split_keys x r]; exact List.mem_append_left _ hy
      simp only [split, hk, if_true]
      refine ⟨⟨hl, fun y hy => hr y (hsub y hy), hbl, h1⟩, h2, ?_, h4⟩
      intro y hy
      simp only [keys, List.mem_append, List.mem_cons] at hy
      rcases hy with hy | hy | hy
      · have := hl y hy; omega
      · omega
      · exact h3 y hy
    · obtain ⟨h1, h2, h3, h4⟩ := split_bst x l hbl
      have hsub : ∀ y ∈ (l.split x).2.keys, y ∈ l.keys := fun y hy => by
        rw [← split_keys x l]; exact List.mem_append_right _ hy
      simp only [split, hk, if_false]
      refine ⟨h1, ⟨fun y hy => hl y (hsub y hy), hr, h2, hbr⟩, h3, ?_⟩
      intro y hy
      simp only [keys, List.mem_append, List.mem_cons] at hy
      rcases hy with hy | hy | hy
      · exact h4 y hy
      · omega
      · have := hr y hy; omega

theorem merge_bst : ∀ (n : Nat) (l r : PTree), l.size + r.size ≤ n → l.BST → r.BST →
    (∀ x ∈ l.keys, ∀ y ∈ r.keys, x < y) → (l.merge r).BST
  | _, l, nil, _, hl, _, _ => by simpa using hl
  | _, nil, node a l k v p r, _, _, hr, _ => by simpa using hr
  | 0, node a l k v p r, node a2 l2 k2 v2 p2 r2, hn, _, _, _ => by simp [size] at hn
  | n + 1, node a l k v p r, node a2 l2 k2 v2 p2 r2, hn, hl, hr, hlt => by
    simp only [size] at hn
    have hl0 := hl
    have hr0 := hr
    obtain ⟨hl1, hl2, hl3, hl4⟩ := hl
    obtain ⟨hr1, hr2, hr3, hr4⟩ := hr
    by_cases hp : p > p2
    · rw [merge_node_gt hp]
      have hsz : r.size + (node a2 l2 k2 v2 p2 r2).size ≤ n := by simp only [size]; omega
      refine ⟨hl1, ?_, hl3, merge_bst n r _ hsz hl4 hr0 ?_⟩
      · intro y hy
        rw [merge_keys _ _ _ le_rfl] at hy
        rcases List.mem_append.1 hy with hy | hy
        · exact hl2 y hy
        · exact hlt k (by simp [keys]) y hy
      · intro x hx y hy
        exact hlt x (by simp [keys, hx]) y hy
    · rw [merge_node_le hp]
      have hsz : (node a l k v p r).size + l2.size ≤ n := by simp only [size]; omega
      refine ⟨?_, hr2, merge_bst n _ l2 hsz hl0 hr3 ?_, hr4⟩
      · intro y hy
        rw [merge_keys _ _ _ le_rfl] at hy
        rcases List.mem_append.1 hy with hy | hy
        · exact hlt y hy k2 (by simp [keys])
        · exact hr1 y hy
      · intro x hx y hy
        exact hlt x hx y (by simp [keys, hy])

/-! ## BST descent on the unfolding -/

theorem lookup_none_iff (x : Int) : ∀ t : PTree, t.BST → (t.lookup x = none ↔ x ∉ t.keys)
  | nil, _ => by simp [lookup, keys]
  | node a l k v p r, hb => by
    obtain ⟨hl, hr, hbl, hbr⟩ := hb
    simp only [lookup, keys, List.mem_append, List.mem_cons, not_or]
    by_cases hk : k = x
    · simp [hk]
    · by_cases hlt : x < k
      · simp only [hk, hlt, if_true, ne_eq, not_false_eq_true, lookup_none_iff x l hbl]
        refine ⟨fun h => ⟨h, fun e => hk e.symm, fun hx => ?_⟩, fun h => h.1⟩
        have := hr x hx; omega
      · simp only [hk, hlt, if_true, if_false, ne_eq, not_false_eq_true,
          lookup_none_iff x r hbr]
        refine ⟨fun h => ⟨fun hx => ?_, fun e => hk e.symm, h⟩, fun h => h.2.2⟩
        have := hl x hx; omega

theorem lookup_mem {x : Int} {b : Nat} : ∀ t : PTree, t.lookup x = some b → b ∈ t.addrs
  | nil, h => by simp [lookup] at h
  | node a l k v p r, h => by
    simp only [lookup] at h
    by_cases hk : k = x
    · simp [hk] at h; simp [addrs, h]
    · by_cases hlt : x < k
      · simp only [hk, hlt, if_true, ne_eq, not_false_eq_true] at h
        simp [addrs, lookup_mem l h]
      · simp only [hk, hlt, if_true, if_false, ne_eq, not_false_eq_true] at h
        simp [addrs, lookup_mem r h]

end PTree

theorem Models.get {h : List Node} {x : Nat} : ∀ {t : PTree}, Models h t → x ∈ t.addrs →
    ∃ n, h[x]? = some n ∧ n.key ∈ t.keys
  | .nil, _, hx => by simp [PTree.addrs] at hx
  | .node a l k v p r, hm, hx => by
    obtain ⟨ha, hl, hr⟩ := hm
    simp only [PTree.addrs, List.mem_append, List.mem_cons] at hx
    rcases hx with hx | hx | hx
    · obtain ⟨n, hn, hk⟩ := Models.get hl hx
      exact ⟨n, hn, by simp [PTree.keys, hk]⟩
    · exact ⟨_, hx ▸ ha, by simp [PTree.keys]⟩
    · obtain ⟨n, hn, hk⟩ := Models.get hr hx
      exact ⟨n, hn, by simp [PTree.keys, hk]⟩

theorem Models.lt_length {h : List Node} {x : Nat} {t : PTree} (hm : Models h t)
    (hx : x ∈ t.addrs) : x < h.length := by
  obtain ⟨n, hn, _⟩ := hm.get hx
  rcases List.getElem?_eq_some.1 hn with ⟨hl, _⟩
  exact hl

theorem Models.lookup_key {h : List Node} {x : Int} {b : Nat} : ∀ {t : PTree}, Models h t →
    t.lookup x = some b → ∃ n, h[b]? = some n ∧ n.key = x
  | .nil, _, hq => by simp [PTree.lookup] at hq
  | .node a l k v p r, hm, hq => by
    obtain ⟨ha, hl, hr⟩ := hm
    simp only [PTree.lookup] at hq
    by_cases hk : k = x
    · simp [hk] at hq
      exact ⟨_, hq ▸ ha, hk⟩
    · by_cases hlt : x < k
      · simp only [hk, hlt, if_true, ne_eq, not_false_eq_true] at hq
        exact Models.lookup_key hl hq
      · simp only [hk, hlt, if_true, if_false, ne_eq, not_false_eq_true] at hq
        exact Models.lookup_key hr hq

/-- The descent loop of `find` computes `PTree.lookup`. -/
theorem findLoop_models (x : Int) : ∀ (fuel : Nat) (a : Nat) (l : PTree) (k v p : Int)
    (r : PTree) (h : List Node), Models h (.node a l k v p r) →
    (PTree.node a l k v p r).size ≤ fuel →
    findLoop fuel h a x = .ok ((PTree.node a l k v p r).lookup x)
  | 0, a, l, k, v, p, r, h, _, hf => by simp [PTree.size] at hf
  | f + 1, a, l, k, v, p, r, h, hm, hf => by
    obtain ⟨ha, hl, hr⟩ := hm
    simp only [PTree.size] at hf
    by_cases hk : k = x
    · simp [findLoop, deref_of_get ha, PTree.lookup, hk]
    · by_cases hlt : x < k
      · cases l with
        | nil => simp [findLoop, deref_of_get ha, PTree.lookup, hk, hlt]
        | node a2 l2 k2 v2 p2 r2 =>
          have := findLoop_models x f a2 l2 k2 v2 p2 r2 h hl (by omega)
          simp only [findLoop, deref_of_get ha, ne_eq, hk, not_false_eq_true, if_true, hlt,
            PTree.ptr_node, this]
          conv_rhs => rw [PTree.lookup]
          simp [hk, hlt]
      · cases r with
        | nil => simp [findLoop, deref_of_get ha, PTree.lookup, hk, hlt]
        | node a2 l2 k2 v2 p2 r2 =>
          have := findLoop_models x f a2 l2 k2 v2 p2 r2 h hr (by omega)
          simp only [findLoop, deref_of_get ha, ne_eq, hk, not_false_eq_true, if_true, hlt,
            if_false, PTree.ptr_node, this]
          conv_rhs => rw [PTree.lookup]
          simp [hk, hlt]

/-- The loop of the `Iterator` constructor computes `PTree.chain`. -/
theorem walkTo_models (x : Int) (b : Nat) : ∀ (t : PTree) (fuel : Nat) (h : List Node)
    (ps : List Nat), Models h t → t.addrs.Nodup → t.lookup x = some b → t.size ≤ fuel →
    walkTo fuel h b x t.ptr ps = .ok (t.chain x ps)
  | .nil, _, _, _, _, _, hq, _ => by simp [PTree.lookup] at hq
  | .node a l k v p r, 0, _, _, _, _, _, hf => by simp [PTree.size] at hf
  | .node a l k v p r, f + 1, h, ps, hm, hnd, hq, hf => by
    obtain ⟨ha, hl, hr⟩ := hm
    simp only [PTree.size] at hf
    simp only [PTree.addrs] at hnd
    have hd := List.nodup_append.1 hnd
    simp only [PTree.lookup] at hq
    by_cases hk : k = x
    · simp [hk] at hq
      simp [walkTo, PTree.chain, hk, hq]
    · have hal : a ∉ l.addrs := fun hx => hd.2.2 hx (List.mem_cons_self _ _)
      have har : a ∉ r.addrs := (List.nodup_cons.1 hd.2.1).1
      by_cases hlt : x < k
      · simp only [hk, hlt, if_true, ne_eq, not_false_eq_true] at hq
        have hne : a ≠ b := fun e => hal (e ▸ PTree.lookup_mem l hq)
        have := walkTo_models x b l f h (a :: ps) hl hd.1 hq (by omega)
        simp [walkTo, hne, deref_of_get ha, hlt, this, PTree.chain, hk]
      · simp only [hk, hlt, if_true, if_false, ne_eq, not_false_eq_true] at hq
        have hne : a ≠ b := fun e => har (e ▸ PTree.lookup_mem r hq)
        have := walkTo_models x b r f h (a :: ps) hr (List.nodup_cons.1 hd.2.1).2 hq (by omega)
        simp [walkTo, hne, deref_of_get ha, hlt, this, PTree.chain, hk]

/-- The cursor over the sentinel. -/
theorem create_sentinel {s : Tree} {t : PTree} (hs : Shape s t) (fuel : Nat) :
    Iterator.create fuel s (some s.reserved) = .ok ⟨s.reserved, []⟩ := by
  obtain ⟨n, hn, _, _⟩ := hs.sentinel
  simp [Iterator.create, deref_of_get hn]

/-- What `find` returns on a well-formed search tree: the sentinel cursor when BST descent
fails, and otherwise the cursor at the node the descent reaches, with the nodes of the
descent as its stack. -/
theorem find_models {s : Tree} {t : PTree} (hs : Shape s t) (x : Int) (fuel : Nat)
    (hf : t.size ≤ fuel) :
    s.find fuel x = .ok (match t.lookup x with
      | none => ⟨s.reserved, []⟩
      | some b => ⟨b, t.chain x []⟩) := by
  cases t with
  | nil =>
    have hr : s.root = none := hs.root
    simp [Tree.find, hr, PTree.lookup, create_sentinel hs]
  | node a l k v p r =>
    have hr : s.root = some a := hs.root
    have hfl := findLoop_models x fuel a l k v p r s.heap hs.models hf
    cases hq : (PTree.node a l k v p r).lookup x with
    | none =>
      rw [hq] at hfl
      simp [Tree.find, hr, hfl, create_sentinel hs]
    | some b =>
      rw [hq] at hfl
      obtain ⟨n, hn, hnk⟩ := hs.models.lookup_key hq
      have hne : b ≠ s.reserved := fun e => hs.apart (e ▸ PTree.lookup_mem _ hq)
      have hw := walkTo_models x b _ fuel s.heap [] hs.models hs.nodup hq hf
      simp only [PTree.ptr_node] at hw
      simp [Tree.find, hr, hfl, Iterator.create, deref_of_get hn, hne, hnk, hw]

/-! ## `updateBounds` -/

theorem leftmost_models : ∀ (fuel : Nat) (a : Nat) (l : PTree) (k v p : Int) (r : PTree)
    (h : List Node), Models h (.node a l k v p r) → (PTree.node a l k v p r).size ≤ fuel →
    ∃ b, leftmost fuel h a = .ok b ∧ (PTree.node a l k v p r).addrs.head? = some b
  | 0, a, l, k, v, p, r, h, _, hf => by simp [PTree.size] at hf
  | f + 1, a, l, k, v, p, r, h, hm, hf => by
    obtain ⟨ha, hl, hr⟩ := hm
    simp only [PTree.size] at hf
    cases l with
    | nil => exact ⟨a, by simp [leftmost, deref_of_get ha], by simp [PTree.addrs]⟩
    | node a2 l2 k2 v2 p2 r2 =>
      obtain ⟨b, hb, hh⟩ := leftmost_models f a2 l2 k2 v2 p2 r2 h hl (by omega)
      refine ⟨b, by simp [leftmost, deref_of_get ha, hb], ?_⟩
      simp only [PTree.addrs] at hh ⊢
      rw [List.head?_append_of_ne_nil _ (by simp)]
      exact hh

theorem rightmost_models : ∀ (fuel : Nat) (a : Nat) (l : PTree) (k v p : Int) (r : PTree)
    (h : List Node), Models h (.node a l k v p r) → (PTree.node a l k v p r).size ≤ fuel →
    ∃ b, rightmost fuel h a = .ok b ∧ (PTree.node a l k v p r).addrs.getLast? = some b
  | 0, a, l, k, v, p, r, h, _, hf => by simp [PTree.size] at hf
  | f + 1, a, l, k, v, p, r, h, hm, hf => by
    obtain ⟨ha, hl, hr⟩ := hm
    simp only [PTree.size] at hf
    cases r with
    | nil => exact ⟨a, by simp [rightmost, deref_of_get ha], by simp [PTree.addrs]⟩
    | node a2 l2 k2 v2 p2 r2 =>
      obtain ⟨b, hb, hh⟩ := rightmost_models f a2 l2 k2 v2 p2 r2 h hr (by omega)
      refine ⟨b, by simp [rightmost, deref_of_get ha, hb], ?_⟩
      simp only [PTree.addrs] at hh ⊢
      rw [List.getLast?_append, List.getLast?_cons, hh]
      simp

/-- On a stored tree `updateBounds` succeeds and caches the first and the last node. -/
theorem updateBounds_models {s : Tree} {t : PTree} (hr : s.root = t.ptr)
    (hm : Models s.heap t) (fuel : Nat) (hf : t.size ≤ fuel) :
    updateBounds fuel s
      = .ok { s with leftest := t.addrs.head?, rightest := t.addrs.getLast? } := by
  cases t with
  | nil =>
    have hr2 : s.root = none := hr
    simp [updateBounds, hr2, PTree.addrs]
  | node a l k v p r =>
    have hr2 : s.root = some a := hr
    obtain ⟨b, hb, hh⟩ := leftmost_models fuel a l k v p r s.heap hm hf
    obtain ⟨c, hc, hg⟩ := rightmost_models fuel a l k v p r s.heap hm hf
    simp [updateBounds, hr2, hb, hc, hh, hg]

/-! ## `insert` of an absent key -/

theorem PTree.inserted_addrs (t : PTree) (c : Int) (a : Nat) (k v p : Int) :
    (t.inserted c a k v p).addrs = (t.split c).1.addrs ++ a :: (t.split c).2.addrs := by
  simp [PTree.inserted, PTree.merge_addrs _ _ _ le_rfl, PTree.addrs]

theorem PTree.inserted_items (t : PTree) (c : Int) (a : Nat) (k v p : Int) :
    (t.inserted c a k v p).items = (t.split c).1.items ++ (k, v, p) :: (t.split c).2.items := by
  simp [PTree.inserted, PTree.merge_items _ _ _ le_rfl, PTree.items]

theorem PTree.inserted_size (t : PTree) (c : Int) (a : Nat) (k v p : Int) :
    (t.inserted c a k v p).size = t.size + 1 := by
  have := PTree.split_size c t
  simp only [PTree.inserted, PTree.merge_size _ _ _ le_rfl, PTree.size]
  omega

theorem PTree.inserted_bst {t : PTree} (hb : t.BST) (a : Nat) {k : Int} (v p : Int)
    (hk : k ∉ t.keys) : (t.inserted k a k v p).BST := by
  obtain ⟨h1, h2, h3, h4⟩ := PTree.split_bst k t hb
  have hgt : ∀ y ∈ (t.split k).2.keys, k < y := by
    intro y hy
    have hle := h4 y hy
    have hne : y ≠ k := fun e =>
      hk (by rw [← PTree.split_keys k t]; exact List.mem_append_right _ (e ▸ hy))
    omega
  refine PTree.merge_bst _ _ _ le_rfl (PTree.merge_bst _ _ _ le_rfl h1 ?_ ?_) h2 ?_
  · simp [PTree.BST, PTree.keys]
  · intro x hx y hy
    simp only [PTree.keys, List.nil_append, List.mem_singleton] at hy
    rw [hy]; exact h3 x hx
  · intro x hx y hy
    rw [PTree.merge_keys _ _ _ le_rfl] at hx
    simp only [PTree.keys, List.nil_append, List.mem_append, List.mem_singleton] at hx
    rcases hx with hx | hx
    · have := h3 x hx; have := hgt y hy; omega
    · rw [hx]; exact hgt y hy

theorem keyToInt_of_int {k : Int} (h1 : -(2 ^ 31) ≤ k) (h2 : k < 2 ^ 31) : keyToInt k = k := by
  unfold keyToInt
  omega

/-- What `insert` does on a well-formed search tree that lacks the key: the sentinel node
receives the key, the value and the drawn priority and is linked between the two parts of
the split at the converted key; a node appended to the store is the new sentinel. -/
theorem insert_models {s : Tree} {t : PTree} (hs : Shape s t) (hb : t.BST) {k : Int}
    (hk : k ∉ t.keys) (v : Int) (drawn : Nat) (fuel : Nat) (hf : t.size < fuel) :
    ∃ s2, s.insert fuel k v drawn = .ok s2 ∧
      Shape s2 (t.inserted (keyToInt k) s.reserved k v (toInt32 drawn)) ∧
      s2.reserved = s.heap.length ∧ s2.heap.length = s.heap.length + 1 ∧
      s2.leftest = (t.inserted (keyToInt k) s.reserved k v (toInt32 drawn)).addrs.head? ∧
      s2.rightest = (t.inserted (keyToInt k) s.reserved k v (toInt32 drawn)).addrs.getLast? := by
  have hfind := find_models hs k fuel (by omega)
  rw [(PTree.lookup_none_iff k t hb).2 hk] at hfind
  have hend : s.end fuel = .ok ⟨s.reserved, []⟩ := create_sentinel hs fuel
  obtain ⟨h1, hsp, hm1, hm2, hlen1, hfr1⟩ :=
    split_models (keyToInt k) t fuel s.heap hs.models hs.nodup (by omega)
  rw [← hs.root] at hsp
  obtain ⟨n, hn, hnl, hnr⟩ := hs.sentinel
  have hn1 : h1[s.reserved]? = some n := by rw [hfr1 _ hs.apart]; exact hn
  have hres_lt : s.reserved < s.heap.length := by
    rcases List.getElem?_eq_some.1 hn with ⟨hl, _⟩
    exact hl
  -- the store after the sentinel has been filled in and a new sentinel allocated
  set p := toInt32 drawn with hp
  set h2 := h1.set s.reserved { n with key := k, value := v, priority := p } with hh2
  set h3 := h2 ++ [Node.fresh] with hh3
  have hlen2 : h2.length = s.heap.length := by simp [hh2, hlen1]
  have hapL : s.reserved ∉ (t.split (keyToInt k)).1.addrs := fun hx =>
    hs.apart (PTree.mem_split_fst_addrs hx)
  have hapR : s.reserved ∉ (t.split (keyToInt k)).2.addrs := fun hx =>
    hs.apart (PTree.mem_split_snd_addrs hx)
  have h3old : ∀ x, x < s.heap.length → h3[x]? = h2[x]? := fun x hx => by
    rw [hh3, List.getElem?_append_left (by omega)]
  have hmL : Models h3 (t.split (keyToInt k)).1 := Models.frame hm1 (fun x hx => by
    rw [h3old x (by have := hm1.lt_length hx; omega), hh2, get_set_of_mem _ hx hapL])
  have hmR : Models h3 (t.split (keyToInt k)).2 := Models.frame hm2 (fun x hx => by
    rw [h3old x (by have := hm2.lt_length hx; omega), hh2, get_set_of_mem _ hx hapR])
  have hmN : Models h3 (.node s.reserved .nil k v p .nil) := by
    refine ⟨?_, trivial, trivial⟩
    rw [h3old _ hres_lt, hh2, get_set_self hn1, hnl, hnr]; rfl
  have hndd := hs.nodup
  rw [← PTree.split_addrs (keyToInt k) t] at hndd
  have hd := List.nodup_append.1 hndd
  -- first merge: the left part with the new node
  have hnd1 : ((t.split (keyToInt k)).1.addrs ++ (PTree.node s.reserved .nil k v p .nil).addrs).Nodup := by
    simp only [PTree.addrs, List.nil_append]
    refine List.nodup_append.2 ⟨hd.1, by simp, ?_⟩
    intro x hx hx2
    rw [List.mem_singleton] at hx2
    exact hapL (hx2 ▸ hx)
  have hsz := PTree.split_size (keyToInt k) t
  obtain ⟨h4, hmg1, hm4, hlen4, hfr4⟩ := merge_models fuel (t.split (keyToInt k)).1
    (.node s.reserved .nil k v p .nil) h3 hmL hmN hnd1 (by simp only [PTree.size]; omega)
  -- second merge: the result with the right part
  have hmR4 : Models h4 (t.split (keyToInt k)).2 := Models.frame hmR (fun x hx => by
    refine hfr4 x (fun hx2 => hd.2.2 hx2 hx) ?_
    simp only [PTree.addrs, List.nil_append, List.mem_singleton]
    intro e; exact hapR (e ▸ hx))
  have hnd2 : (((t.split (keyToInt k)).1.merge (.node s.reserved .nil k v p .nil)).addrs
      ++ (t.split (keyToInt k)).2.addrs).Nodup := by
    rw [PTree.merge_addrs _ _ _ le_rfl]
    simp only [PTree.addrs, List.nil_append, List.append_assoc, List.singleton_append]
    refine List.nodup_append.2 ⟨hd.1, List.nodup_cons.2 ⟨hapR, hd.2.1⟩, ?_⟩
    intro x hx hx2
    rcases List.mem_cons.1 hx2 with hx2 | hx2
    · exact hapL (hx2 ▸ hx)
    · exact hd.2.2 hx hx2
  obtain ⟨h5, hmg2, hm5, hlen5, hfr5⟩ := merge_models fuel
    ((t.split (keyToInt k)).1.merge (.node s.reserved .nil k v p .nil)) (t.split (keyToInt k)).2 h4 hm4 hmR4 hnd2
    (by rw [PTree.merge_size _ _ _ le_rfl]; simp only [PTree.size]; omega)
  have hT : (((t.split (keyToInt k)).1).merge (.node s.reserved .nil k v p .nil)).merge (t.split (keyToInt k)).2
      = t.inserted (keyToInt k) s.reserved k v p := rfl
  rw [hT] at hmg2 hm5
  -- the cached bounds
  have hub := updateBounds_models
    (s := { s with heap := h5, root := (t.inserted (keyToInt k) s.reserved k v p).ptr, reserved := h2.length })
    rfl hm5 fuel (by rw [PTree.inserted_size]; omega)
  have haddr := PTree.inserted_addrs t (keyToInt k) s.reserved k v p
  have hnew : ∀ x ∈ (t.inserted (keyToInt k) s.reserved k v p).addrs, x < s.heap.length := by
    intro x hx
    rw [haddr] at hx
    rcases List.mem_append.1 hx with hx | hx
    · have := hm1.lt_length hx; omega
    · rcases List.mem_cons.1 hx with hx | hx
      · omega
      · have := hm2.lt_length hx; omega
  have hfresh : h5[s.heap.length]? = some Node.fresh := by
    rw [hfr5, hfr4, hh3, List.getElem?_append_right (by omega)]
    · simp [hlen2]
    · intro hx; have := hm1.lt_length hx; omega
    · simp only [PTree.addrs, List.nil_append, List.mem_singleton]; omega
    · rw [PTree.merge_addrs _ _ _ le_rfl]
      simp only [PTree.addrs, List.nil_append, List.mem_append, List.mem_singleton, not_or]
      exact ⟨fun hx => by have := hm1.lt_length hx; omega, by omega⟩
    · intro hx; have := hm2.lt_length hx; omega
  refine ⟨Tree.mk h5 (t.inserted (keyToInt k) s.reserved k v p).ptr
      (t.inserted (keyToInt k) s.reserved k v p).addrs.head?
      (t.inserted (keyToInt k) s.reserved k v p).addrs.getLast? h2.length,
    ?_, ⟨rfl, hm5, ?_, ⟨Node.fresh, ?_, rfl, rfl⟩, ?_⟩, ?_, ?_, rfl, rfl⟩
  · simp only [Tree.insert, hfind, hend, Iterator.eq, beq_self_eq_true, Bool.not_true,
      Bool.false_eq_true, if_false, hsp, hn1]
    simp only [PTree.ptr_node] at hmg1
    simp only [← hh2, ← hh3, ← hp, hmg1, hmg2]
    exact hub
  · rw [haddr]
    refine List.nodup_append.2 ⟨hd.1, List.nodup_cons.2 ⟨hapR, hd.2.1⟩, ?_⟩
    intro x hx hx2
    rcases List.mem_cons.1 hx2 with hx2 | hx2
    · exact hapL (hx2 ▸ hx)
    · exact hd.2.2 hx hx2
  · simp only [hlen2]; exact hfresh
  · simp only [hlen2]
    intro hx; have := hnew _ hx; omega
  · simp [hlen2]
  · simp [hlen5, hlen4, hh3, hlen2]

/-! ## The heap invariant on the raw pointer graph -/

theorem SamePrio.refl (h : List Node) : SamePrio h h :=
  ⟨rfl, fun _ n hn => ⟨n, hn, rfl⟩⟩

theorem SamePrio.trans {h1 h2 h3 : List Node} (h12 : SamePrio h1 h2) (h23 : SamePrio h2 h3) :
    SamePrio h1 h3 := by
  refine ⟨h23.1.trans h12.1, fun a n hn => ?_⟩
  obtain ⟨n2, hn2, hp2⟩ := h12.2 a n hn
  obtain ⟨n3, hn3, hp3⟩ := h23.2 a n2 hn2
  exact ⟨n3, hn3, hp3.trans hp2⟩

theorem get_set_eq_ite {h : List Node} {a : Nat} {n1 : Node} (ha : h[a]? = some n1)
    (n2 : Node) (b : Nat) : (h.set a n2)[b]? = if b = a then some n2 else h[b]? := by
  by_cases hb : b = a
  · subst hb; simp [get_set_self ha]
  · simp [hb, get_set_other n2 hb]

theorem SamePrio.of_set {h : List Node} {a : Nat} {n1 n2 : Node} (ha : h[a]? = some n1)
    (hp : n2.priority = n1.priority) : SamePrio h (h.set a n2) := by
  refine ⟨by simp, fun b n hn => ?_⟩
  rw [get_set_eq_ite ha]
  by_cases hb : b = a
  · subst hb
    rw [ha] at hn
    injection hn with hn
    exact ⟨n2, by simp, hn ▸ hp⟩
  · exact ⟨n, by simp [hb, hn], rfl⟩

theorem Bounded.mono {h h2 : List Node} {res : Nat} {B B2 : Int} {p : Option Nat}
    (hb : Bounded h res B p) (hs : SamePrio h h2) (hle : B ≤ B2) : Bounded h2 res B2 p := by
  intro a ha
  obtain ⟨hne, n, hn, hp⟩ := hb a ha
  obtain ⟨n2, hn2, hp2⟩ := hs.2 a n hn
  exact ⟨hne, n2, hn2, by omega⟩

theorem EdgeOk.after_set {h : List Node} {res a : Nat} {n1 n2 : Node} (he : EdgeOk h res)
    (ha : h[a]? = some n1) (hp : n2.priority = n1.priority)
    (hc : ∀ c, (n2.left = some c ∨ n2.right = some c) →
      c ≠ res ∧ ∃ m, h[c]? = some m ∧ m.priority ≤ n2.priority) :
    EdgeOk (h.set a n2) res := by
  have hsame := SamePrio.of_set ha hp
  intro b nb hb c hcb
  rw [get_set_eq_ite ha] at hb
  by_cases hba : b = a
  · simp only [hba, if_true, Option.some.injEq] at hb
    subst hb
    obtain ⟨hne, m, hm, hle⟩ := hc c hcb
    obtain ⟨m2, hm2, hp2⟩ := hsame.2 c m hm
    exact ⟨hne, m2, hm2, by omega⟩
  · simp only [hba, if_false] at hb
    obtain ⟨hne, m, hm, hle⟩ := he b nb hb c hcb
    obtain ⟨m2, hm2, hp2⟩ := hsame.2 c m hm
    exact ⟨hne, m2, hm2, by omega⟩

theorem setRight_ok {h h2 : List Node} {a : Nat} {p : Option Nat}
    (hq : setRight h a p = .ok h2) :
    ∃ n, h[a]? = some n ∧ h2 = h.set a { n with right := p } := by
  unfold setRight at hq
  cases hn : h[a]? with
  | none => simp [hn] at hq
  | some n =>
    simp only [hn, Except.ok.injEq] at hq
    exact ⟨n, rfl, hq.symm⟩

theorem setLeft_ok {h h2 : List Node} {a : Nat} {p : Option Nat}
    (hq : setLeft h a p = .ok h2) :
    ∃ n, h[a]? = some n ∧ h2 = h.set a { n with left := p } := by
  unfold setLeft at hq
  cases hn : h[a]? with
  | none => simp [hn] at hq
  | some n =>
    simp only [hn, Except.ok.injEq] at hq
    exact ⟨n, rfl, hq.symm⟩

/-- Whenever `split` returns, on any pointer graph with heap-ordered edges, the edges are
still heap-ordered, no priority has changed, the sentinel is untouched and the two results
are bounded by the bound of the argument. -/
theorem split_edges (res : Nat) (k : Int) : ∀ (fuel : Nat) (h : List Node) (v : Option Nat)
    (B : Int) (h2 : List Node) (x y : Option Nat),
    EdgeOk h res → Bounded h res B v → split fuel h v k = .ok (h2, x, y) →
    EdgeOk h2 res ∧ SamePrio h h2 ∧ h2[res]? = h[res]? ∧
      Bounded h2 res B x ∧ Bounded h2 res B y
  | fuel, h, none, B, h2, x, y, he, _, hq => by
    have : h2 = h ∧ x = none ∧ y = none := by
      cases fuel <;> simp [split] at hq <;> simp [← hq.1, ← hq.2.1, ← hq.2.2]
    obtain ⟨rfl, rfl, rfl⟩ := this
    exact ⟨he, SamePrio.refl _, rfl, fun _ hx => by simp at hx, fun _ hx => by simp at hx⟩
  | 0, h, some a, B, h2, x, y, _, _, hq => by simp [split] at hq
  | f + 1, h, some a, B, h2, x, y, he, hb, hq => by
    obtain ⟨hares, n, hn, hnB⟩ := hb a rfl
    simp only [split, deref_of_get hn] at hq
    by_cases hk : k > n.key
    · simp only [hk, if_true] at hq
      cases hrec : split f h n.right k with
      | error e => simp [hrec] at hq
      | ok res1 =>
        obtain ⟨h1, p1, p2⟩ := res1
        simp only [hrec] at hq
        cases hset : setRight h1 a p1 with
        | error e => simp [hset] at hq
        | ok hh =>
          simp only [hset, Except.ok.injEq, Prod.mk.injEq] at hq
          obtain ⟨rfl, rfl, rfl⟩ := hq
          have hbr : Bounded h res n.priority n.right := fun c hc =>
            he a n hn c (Or.inr hc)
          obtain ⟨he1, hs1, hr1, hb1, hb2⟩ :=
            split_edges res k f h n.right n.priority h1 p1 p2 he hbr hrec
          obtain ⟨n1, hn1, rfl⟩ := setRight_ok hset
          obtain ⟨n1b, hn1b, hp1⟩ := hs1.2 a n hn
          rw [hn1] at hn1b
          injection hn1b with hn1b
          subst hn1b
          have hs2 : SamePrio h1 (h1.set a { n1 with right := p1 }) := SamePrio.of_set hn1 rfl
          refine ⟨EdgeOk.after_set he1 hn1 rfl ?_, hs1.trans hs2, ?_, ?_, hb2.mono hs2 hnB⟩
          · intro c hc
            rcases hc with hc | hc
            · exact he1 a n1 hn1 c (Or.inl hc)
            · obtain ⟨hne, m, hm, hle⟩ := hb1 c hc
              exact ⟨hne, m, hm, by simp only; omega⟩
          · rw [get_set_other _ (Ne.symm hares), hr1]
          · intro c hc
            injection hc with hc
            subst hc
            exact ⟨hares, _, get_set_self hn1, by simp only; omega⟩
    · simp only [hk, if_false] at hq
      cases hrec : split f h n.left k with
      | error e => simp [hrec] at hq
      | ok res1 =>
        obtain ⟨h1, p1, p2⟩ := res1
        simp only [hrec] at hq
        cases hset : setLeft h1 a p2 with
        | error e => simp [hset] at hq
        | ok hh =>
          simp only [hset, Except.ok.injEq, Prod.mk.injEq] at hq
          obtain ⟨rfl, rfl, rfl⟩ := hq
          have hbl : Bounded h res n.priority n.left := fun c hc =>
            he a n hn c (Or.inl hc)
          obtain ⟨he1, hs1, hr1, hb1, hb2⟩ :=
            split_edges res k f h n.left n.priority h1 p1 p2 he hbl hrec
          obtain ⟨n1, hn1, rfl⟩ := setLeft_ok hset
          obtain ⟨n1b, hn1b, hp1⟩ := hs1.2 a n hn
          rw [hn1] at hn1b
          injection hn1b with hn1b
          subst hn1b
          have hs2 : SamePrio h1 (h1.set a { n1 with left := p2 }) := SamePrio.of_set hn1 rfl
          refine ⟨EdgeOk.after_set he1 hn1 rfl ?_, hs1.trans hs2, ?_, hb1.mono hs2 hnB, ?_⟩
          · intro c hc
            rcases hc with hc | hc
            · obtain ⟨hne, m, hm, hle⟩ := hb2 c hc
              exact ⟨hne, m, hm, by simp only; omega⟩
            · exact he1 a n1 hn1 c (Or.inr hc)
          · rw [get_set_other _ (Ne.symm hares), hr1]
          · intro c hc
            injection hc with hc
            subst hc
            exact ⟨hares, _, get_set_self hn1, by simp only; omega⟩

/-- Whenever `merge` returns, on any pointer graph with heap-ordered edges, the edges are
still heap-ordered, no priority has changed, the sentinel is untouched and the result is
bounded by a common bound of the two arguments. -/
theorem merge_edges (res : Nat) : ∀ (fuel : Nat) (h : List Node) (l r : Option Nat)
    (B : Int) (h2 : List Node) (x : Option Nat),
    EdgeOk h res → Bounded h res B l → Bounded h res B r → merge fuel h l r = .ok (h2, x) →
    EdgeOk h2 res ∧ SamePrio h h2 ∧ h2[res]? = h[res]? ∧ Bounded h2 res B x
  | fuel, h, l, none, B, h2, x, he, hl, _, hq => by
    have : h2 = h ∧ x = l := by
      cases fuel <;> cases l <;> simp [merge] at hq <;> simp [← hq.1, ← hq.2]
    obtain ⟨rfl, rfl⟩ := this
    exact ⟨he, SamePrio.refl _, rfl, hl⟩
  | fuel, h, none, some r, B, h2, x, he, _, hr, hq => by
    have : h2 = h ∧ x = some r := by
      cases fuel <;> simp [merge] at hq <;> simp [← hq.1, ← hq.2]
    obtain ⟨rfl, rfl⟩ := this
    exact ⟨he, SamePrio.refl _, rfl, hr⟩
  | 0, h, some l, some r, B, h2, x, _, _, _, hq => by simp [merge] at hq
  | f + 1, h, some l, some r, B, h2, x, he, hl, hr, hq => by
    obtain ⟨hlres, nl, hnl, hlB⟩ := hl l rfl
    obtain ⟨hrres, nr, hnr, hrB⟩ := hr r rfl
    simp only [merge, deref_of_get hnl, deref_of_get hnr] at hq
    by_cases hp : nl.priority > nr.priority
    · simp only [hp, if_true] at hq
      cases hrec : merge f h nl.right (some r) with
      | error e => simp [hrec] at hq
      | ok res1 =>
        obtain ⟨h1, x1⟩ := res1
        simp only [hrec] at hq
        cases hset : setRight h1 l x1 with
        | error e => simp [hset] at hq
        | ok hh =>
          simp only [hset, Except.ok.injEq, Prod.mk.injEq] at hq
          obtain ⟨rfl, rfl⟩ := hq
          have hb1 : Bounded h res nl.priority nl.right := fun c hc =>
            he l nl hnl c (Or.inr hc)
          have hb2 : Bounded h res nl.priority (some r) := fun c hc => by
            injection hc with hc
            subst hc
            exact ⟨hrres, nr, hnr, by omega⟩
          obtain ⟨he1, hs1, hr1, hbx⟩ :=
            merge_edges res f h nl.right (some r) nl.priority h1 x1 he hb1 hb2 hrec
          obtain ⟨n1, hn1, rfl⟩ := setRight_ok hset
          obtain ⟨n1b, hn1b, hp1⟩ := hs1.2 l nl hnl
          rw [hn1] at hn1b
          injection hn1b with hn1b
          subst hn1b
          have hs2 : SamePrio h1 (h1.set l { n1 with right := x1 }) := SamePrio.of_set hn1 rfl
          refine ⟨EdgeOk.after_set he1 hn1 rfl ?_, hs1.trans hs2, ?_, ?_⟩
          · intro c hc
            rcases hc with hc | hc
            · exact he1 l n1 hn1 c (Or.inl hc)
            · obtain ⟨hne, m, hm, hle⟩ := hbx c hc
              exact ⟨hne, m, hm, by simp only; omega⟩
          · rw [get_set_other _ (Ne.symm hlres), hr1]
          · intro c hc
            injection hc with hc
            subst hc
            exact ⟨hlres, _, get_set_self hn1, by simp only; omega⟩
    · simp only [hp, if_false] at hq
      cases hrec : merge f h (some l) nr.left with
      | error e => simp [hrec] at hq
      | ok res1 =>
        obtain ⟨h1, x1⟩ := res1
        simp only [hrec] at hq
        cases hset : setLeft h1 r x1 with
        | error e => simp [hset] at hq
        | ok hh =>
          simp only [hset, Except.ok.injEq, Prod.mk.injEq] at hq
          obtain ⟨rfl, rfl⟩ := hq
          have hb1 : Bounded h res nr.priority (some l) := fun c hc => by
            injection hc with hc
            subst hc
            exact ⟨hlres, nl, hnl, by omega⟩
          have hb2 : Bounded h res nr.priority nr.left := fun c hc =>
            he r nr hnr c (Or.inl hc)
          obtain ⟨he1, hs1, hr1, hbx⟩ :=
            merge_edges res f h (some l) nr.left nr.priority h1 x1 he hb1 hb2 hrec
          obtain ⟨n1, hn1, rfl⟩ := setLeft_ok hset
          obtain ⟨n1b, hn1b, hp1⟩ := hs1.2 r nr hnr
          rw [hn1] at hn1b
          injection hn1b with hn1b
          subst hn1b
          have hs2 : SamePrio h1 (h1.set r { n1 with left := x1 }) := SamePrio.of_set hn1 rfl
          refine ⟨EdgeOk.after_set he1 hn1 rfl ?_, hs1.trans hs2, ?_, ?_⟩
          · intro c hc
            rcases hc with hc | hc
            · obtain ⟨hne, m, hm, hle⟩ := hbx c hc
              exact ⟨hne, m, hm, by simp only; omega⟩
            · exact he1 r n1 hn1 c (Or.inr hc)
          · rw [get_set_other _ (Ne.symm hrres), hr1]
          · intro c hc
            injection hc with hc
            subst hc
            exact ⟨hrres, _, get_set_self hn1, by simp only; omega⟩

theorem updateBounds_ok {fuel : Nat} {s s2 : Tree} (hq : updateBounds fuel s = .ok s2) :
    s2.heap = s.heap ∧ s2.root = s.root ∧ s2.reserved = s.reserved := by
  unfold updateBounds at hq
  cases hr : s.root with
  | none =>
    simp only [hr, Except.ok.injEq] at hq
    subst hq; exact ⟨rfl, rfl, rfl⟩
  | some r =>
    simp only [hr] at hq
    cases hl : leftmost fuel s.heap r with
    | error e => simp [hl] at hq
    | ok lo =>
      simp only [hl] at hq
      cases hh : rightmost fuel s.heap r with
      | error e => simp [hh] at hq
      | ok hi =>
        simp only [hh, Except.ok.injEq] at hq
        subst hq; exact ⟨rfl, rfl, rfl⟩

/-- Filling the sentinel in and appending a new sentinel keeps the edges heap-ordered. -/
theorem alloc_edges {h : List Node} {res : Nat} {n : Node} (he : EdgeOk h res)
    (hn : h[res]? = some n) (hl : n.left = none) (hr : n.right = none) (k v p : Int) :
    EdgeOk (h.set res { n with key := k, value := v, priority := p } ++ [Node.fresh])
      h.length := by
  have hlt : res < h.length := by
    rcases List.getElem?_eq_some.1 hn with ⟨hl, _⟩
    exact hl
  have key : ∀ (c : Nat) (m : Node), c ≠ res → h[c]? = some m →
      (h.set res { n with key := k, value := v, priority := p } ++ [Node.fresh])[c]?
        = some m := by
    intro c m hc hm
    have hcl : c < h.length := by
      rcases List.getElem?_eq_some.1 hm with ⟨hl, _⟩
      exact hl
    rw [List.getElem?_append_left (by simpa using hcl), get_set_other _ hc, hm]
  intro b nb hb c hc
  by_cases hbl : b < h.length
  · rw [List.getElem?_append_left (by simpa using hbl), get_set_eq_ite hn] at hb
    by_cases hbr : b = res
    · simp only [hbr, if_true, Option.some.injEq] at hb
      subst hb
      simp [hl, hr] at hc
    · simp only [hbr, if_false] at hb
      obtain ⟨hne, m, hm, hle⟩ := he b nb hb c hc
      have hcl : c < h.length := by
        rcases List.getElem?_eq_some.1 hm with ⟨hl, _⟩
        exact hl
      exact ⟨by omega, m, key c m hne hm, hle⟩
  · by_cases hbe : b = h.length
    · rw [List.getElem?_append_right (by simp [hbe])] at hb
      simp [hbe, Node.fresh] at hb
      subst hb
      simp at hc
    · rw [List.getElem?_eq_none (by simp; omega)] at hb
      simp at hb

theorem alloc_bounded {h : List Node} {res : Nat} (n : Node) {B : Int} {q : Option Nat}
    (k v p : Int) (hb : Bounded h res B q) :
    Bounded (h.set res { n with key := k, value := v, priority := p } ++ [Node.fresh])
      h.length B q := by
  intro a ha
  obtain ⟨hne, m, hm, hle⟩ := hb a ha
  have hal : a < h.length := by
    rcases List.getElem?_eq_some.1 hm with ⟨hl, _⟩
    exact hl
  refine ⟨by omega, m, ?_, hle⟩
  rw [List.getElem?_append_left (by simpa using hal), get_set_other _ hne, hm]

/-- `insert` keeps the invariant of the raw pointer graph, whatever the state and the
drawn priority. -/
theorem insert_inv {s s2 : Tree} {fuel : Nat} {k v : Int} {drawn : Nat} (hi : Inv s)
    (hq : s.insert fuel k v drawn = .ok s2) : Inv s2 := by
  unfold Tree.insert at hq
  cases hfind : s.find fuel k with
  | error e => simp [hfind] at hq
  | ok it =>
    cases hend : s.end fuel with
    | error e => simp [hfind, hend] at hq
    | ok e =>
      simp only [hfind, hend] at hq
      by_cases heq : it.eq e = true
      · simp only [heq, Bool.not_true, Bool.false_eq_true, if_false] at hq
        obtain ⟨n, hn, hnl, hnr⟩ := hi.sentinel
        cases hsp : split fuel s.heap s.root (keyToInt k) with
        | error e => simp [hsp] at hq
        | ok res1 =>
          obtain ⟨h1, p1, p2⟩ := res1
          simp only [hsp] at hq
          -- a common bound for the root and the new node
          obtain ⟨B0, hB0⟩ : ∃ B0, Bounded s.heap s.reserved B0 s.root := by
            cases hr : s.root with
            | none => exact ⟨0, fun _ hx => by simp at hx⟩
            | some a =>
              obtain ⟨hne, m, hm⟩ := hi.root a hr
              refine ⟨m.priority, fun c hc => ?_⟩
              injection hc with hc
              subst hc
              exact ⟨hne, m, hm, le_rfl⟩
          obtain ⟨he1, hs1, hr1, hb1, hb2⟩ :=
            split_edges s.reserved (keyToInt k) fuel s.heap s.root B0 h1 p1 p2 hi.edges hB0 hsp
          have hn1 : h1[s.reserved]? = some n := by rw [hr1]; exact hn
          simp only [hn1, List.length_set] at hq
          set p := toInt32 drawn with hp
          set h3 := h1.set s.reserved { n with key := k, value := v, priority := p }
            ++ [Node.fresh] with hh3
          have hres_lt : s.reserved < h1.length := by
            rcases List.getElem?_eq_some.1 hn1 with ⟨hl, _⟩
            exact hl
          have he3 : EdgeOk h3 h1.length := alloc_edges he1 hn1 hnl hnr k v p
          have hb13 : Bounded h3 h1.length (max B0 p) p1 :=
            (alloc_bounded n k v p hb1).mono (SamePrio.refl _) (le_max_left _ _)
          have hb23 : Bounded h3 h1.length (max B0 p) p2 :=
            (alloc_bounded n k v p hb2).mono (SamePrio.refl _) (le_max_left _ _)
          have hbN : Bounded h3 h1.length (max B0 p) (some s.reserved) := by
            intro c hc
            injection hc with hc
            subst hc
            refine ⟨by omega, { n with key := k, value := v, priority := p }, ?_, le_max_right B0 p⟩
            rw [hh3, List.getElem?_append_left (by simpa using hres_lt), get_set_self hn1]
          have hfresh3 : h3[h1.length]? = some Node.fresh := by
            rw [hh3, List.getElem?_append_right (by simp)]
            simp
          cases hm1 : merge fuel h3 p1 (some s.reserved) with
          | error e => simp [hm1] at hq
          | ok res2 =>
            obtain ⟨h4, q1⟩ := res2
            simp only [hm1] at hq
            obtain ⟨he4, hs4, hr4, hbq1⟩ :=
              merge_edges h1.length fuel h3 p1 (some s.reserved) _ h4 q1 he3 hb13 hbN hm1
            cases hm2 : merge fuel h4 q1 p2 with
            | error e => simp [hm2] at hq
            | ok res3 =>
              obtain ⟨h5, q2⟩ := res3
              simp only [hm2] at hq
              obtain ⟨he5, hs5, hr5, hbq2⟩ :=
                merge_edges h1.length fuel h4 q1 p2 _ h5 q2 he4 hbq1
                  (hb23.mono hs4 le_rfl) hm2
              obtain ⟨hheap, hroot, hres⟩ := updateBounds_ok hq
              simp only at hheap hroot hres
              refine ⟨?_, ?_, ⟨Node.fresh, ?_, rfl, rfl⟩⟩
              · rw [hheap, hres]; exact he5
              · intro a ha
                rw [hroot] at ha
                obtain ⟨hne, m, hm, _⟩ := hbq2 a ha
                rw [hheap, hres]
                exact ⟨hne, m, hm⟩
              · rw [hheap, hres, hr5, hr4, hfresh3]
      · simp only [heq, Bool.not_false, if_true, Except.ok.injEq] at hq
        subst hq; exact hi

/-- `erase` keeps the invariant of the raw pointer graph, whatever the state. -/
theorem erase_inv {s s2 : Tree} {fuel : Nat} {k : Int} (hi : Inv s)
    (hq : s.erase fuel k = .ok s2) : Inv s2 := by
  unfold Tree.erase at hq
  cases hfind : s.find fuel k with
  | error e => simp [hfind] at hq
  | ok it =>
    cases hend : s.end fuel with
    | error e => simp [hfind, hend] at hq
    | ok e =>
      simp only [hfind, hend] at hq
      by_cases heq : it.eq e = true
      · simp only [heq, if_true, Except.ok.injEq] at hq
        subst hq; exact hi
      · simp only [heq, Bool.false_eq_true, if_false] at hq
        cases hloc : locate fuel s.heap s.root k with
        | error e => simp [hloc] at hq
        | ok v =>
          simp only [hloc] at hq
          cases hd : deref s.heap (some v) with
          | error e => simp [hd] at hq
          | ok nv =>
            simp only [hd] at hq
            have hnv := deref_some_iff.1 hd
            cases hm : merge fuel s.heap nv.left nv.right with
            | error e => simp [hm] at hq
            | ok res1 =>
              obtain ⟨h1, x⟩ := res1
              simp only [hm] at hq
              have hb1 : Bounded s.heap s.reserved nv.priority nv.left := fun c hc =>
                hi.edges v nv hnv c (Or.inl hc)
              have hb2 : Bounded s.heap s.reserved nv.priority nv.right := fun c hc =>
                hi.edges v nv hnv c (Or.inr hc)
              obtain ⟨he1, hs1, hr1, _⟩ :=
                merge_edges s.reserved fuel s.heap nv.left nv.right _ h1 x hi.edges hb1 hb2 hm
              obtain ⟨hheap, hroot, hres⟩ := updateBounds_ok hq
              simp only at hheap hroot hres
              obtain ⟨n, hn, hnl, hnr⟩ := hi.sentinel
              refine ⟨?_, ?_, ⟨n, ?_, hnl, hnr⟩⟩
              · rw [hheap, hres]; exact he1
              · intro a ha
                rw [hroot] at ha
                obtain ⟨hne, m, hm2⟩ := hi.root a ha
                obtain ⟨m2, hm3, _⟩ := hs1.2 a m hm2
                rw [hheap, hres]
                exact ⟨hne, m2, hm3⟩
              · rw [hheap, hres, hr1]; exact hn

theorem empty_inv : Inv empty := by
  refine ⟨?_, ?_, ⟨Node.fresh, rfl, rfl, rfl⟩⟩
  · intro a n hn c hc
    cases a with
    | zero =>
      simp [empty, Node.fresh] at hn
      subst hn
      simp at hc
    | succ a => simp [empty] at hn
  · intro a ha
    simp [empty] at ha

theorem Reachable.inv {s : Tree} (hr : Reachable s) : Inv s := by
  induction hr with
  | empty => exact empty_inv
  | insert fuel key value drawn _ hq ih => exact insert_inv ih hq
  | erase fuel key _ hq ih => exact erase_inv ih hq

theorem Reach.stored {s : Tree} (hi : Inv s) {a : Nat} (hr : Reach s a) :
    a ≠ s.reserved ∧ ∃ n, s.heap[a]? = some n := by
  induction hr with
  | root h => exact hi.root _ h
  | left _ hn hc _ =>
    obtain ⟨hne, m, hm, _⟩ := hi.edges _ _ hn _ (Or.inl hc)
    exact ⟨hne, m, hm⟩
  | right _ hn hc _ =>
    obtain ⟨hne, m, hm, _⟩ := hi.edges _ _ hn _ (Or.inr hc)
    exact ⟨hne, m, hm⟩

theorem Models.heapOrdered {h : List Node} {res : Nat} (he : EdgeOk h res) :
    ∀ {t : PTree}, Models h t → t.HeapOrdered
  | .nil, _ => trivial
  | .node a l k v p r, hm => by
    obtain ⟨ha, hl, hr⟩ := hm
    refine ⟨?_, ?_, Models.heapOrdered he hl, Models.heapOrdered he hr⟩
    · intro q hq
      cases l with
      | nil => simp [PTree.prio] at hq
      | node a2 l2 k2 v2 p2 r2 =>
        simp only [PTree.prio, Option.mem_def, Option.some.injEq] at hq
        obtain ⟨_, m, hm, hle⟩ := he a _ ha a2 (Or.inl rfl)
        rw [hl.1] at hm
        injection hm with hm
        subst hm; subst hq
        exact hle
    · intro q hq
      cases r with
      | nil => simp [PTree.prio] at hq
      | node a2 l2 k2 v2 p2 r2 =>
        simp only [PTree.prio, Option.mem_def, Option.some.injEq] at hq
        obtain ⟨_, m, hm, hle⟩ := he a _ ha a2 (Or.inr rfl)
        rw [hr.1] at hm
        injection hm with hm
        subst hm; subst hq
        exact hle

/-! ## Cells of the unfolding -/

namespace PTree

theorem merge_cells : ∀ (n : Nat) (l r : PTree), l.size + r.size ≤ n →
    (l.merge r).cells = l.cells ++ r.cells
  | _, l, nil, _ => by simp [cells]
  | _, nil, node a l k v p r, _ => by simp [cells]
  | 0, node a l k v p r, node a2 l2 k2 v2 p2 r2, hn => by simp [size] at hn
  | n + 1, node a l k v p r, node a2 l2 k2 v2 p2 r2, hn => by
    simp only [size] at hn
    by_cases hp : p > p2
    · rw [merge_node_gt hp]
      simp only [cells]
      rw [merge_cells n r (node a2 l2 k2 v2 p2 r2) (by simp only [size]; omega)]
      simp [cells]
    · rw [merge_node_le hp]
      simp only [cells]
      rw [merge_cells n (node a l k v p r) l2 (by simp only [size]; omega)]
      simp [cells]

theorem inserted_cells (t : PTree) (c : Int) (a : Nat) (k v p : Int) :
    (t.inserted c a k v p).cells = (t.split c).1.cells ++ (a, k, v, p) :: (t.split c).2.cells := by
  simp [inserted, merge_cells _ _ _ le_rfl, cells]

theorem cells_addr : ∀ {t : PTree} {c : Nat × Int × Int × Int}, c ∈ t.cells → c.1 ∈ t.addrs
  | nil, _, h => by simp [cells] at h
  | node a l k v p r, c, h => by
    simp only [cells, List.mem_append, List.mem_cons] at h
    simp only [addrs, List.mem_append, List.mem_cons]
    rcases h with h | h | h
    · exact Or.inl (cells_addr h)
    · exact Or.inr (Or.inl (by rw [h]))
    · exact Or.inr (Or.inr (cells_addr h))

end PTree

theorem Models.cell {h : List Node} : ∀ {t : PTree} {c : Nat × Int × Int × Int},
    Models h t → c ∈ t.cells →
    ∃ n, h[c.1]? = some n ∧ n.key = c.2.1 ∧ n.value = c.2.2.1 ∧ n.priority = c.2.2.2
  | .nil, _, _, hc => by simp [PTree.cells] at hc
  | .node a l k v p r, c, hm, hc => by
    obtain ⟨ha, hl, hr⟩ := hm
    simp only [PTree.cells, List.mem_append, List.mem_cons] at hc
    rcases hc with hc | hc | hc
    · exact Models.cell hl hc
    · subst hc; exact ⟨_, ha, rfl, rfl, rfl⟩
    · exact Models.cell hr hc

/-- The store determines the unfolding below a pointer. -/
theorem Models.unique {h : List Node} : ∀ {t t2 : PTree}, Models h t → Models h t2 →
    t.ptr = t2.ptr → t = t2
  | .nil, .nil, _, _, _ => rfl
  | .nil, .node _ _ _ _ _ _, _, _, hp => by simp at hp
  | .node _ _ _ _ _ _, .nil, _, _, hp => by simp at hp
  | .node a l k v p r, .node a2 l2 k2 v2 p2 r2, hm, hm2, hp => by
    simp only [PTree.ptr_node, Option.some.injEq] at hp
    subst hp
    obtain ⟨ha, hl, hr⟩ := hm
    obtain ⟨ha2, hl2, hr2⟩ := hm2
    rw [ha] at ha2
    simp only [Option.some.injEq, Node.mk.injEq] at ha2
    obtain ⟨rfl, rfl, rfl, hpl, hpr⟩ := ha2
    rw [Models.unique hl hl2 hpl, Models.unique hr hr2 hpr]

/-! ## The concrete containers -/

theorem shape_empty : Shape empty .nil :=
  ⟨rfl, trivial, List.nodup_nil, ⟨Node.fresh, rfl, rfl, rfl⟩, by simp [PTree.addrs]⟩

theorem shape_single : Shape single singleTree :=
  ⟨rfl, ⟨rfl, trivial, trivial⟩, by simp [singleTree, PTree.addrs],
    ⟨Node.fresh, rfl, rfl, rfl⟩, by simp [singleTree, single, PTree.addrs]⟩

theorem shape_zigzag : Shape zigzag zigzagTree :=
  ⟨rfl, ⟨rfl, ⟨rfl, trivial, rfl, ⟨rfl, trivial, trivial⟩, trivial⟩, trivial⟩,
    by simp [zigzagTree, PTree.addrs],
    ⟨Node.fresh, rfl, rfl, rfl⟩, by simp [zigzagTree, zigzag, PTree.addrs]⟩

theorem shape_triple : Shape triple tripleTree :=
  ⟨rfl, ⟨rfl, ⟨rfl, trivial, trivial⟩, rfl, trivial, trivial⟩,
    by simp [tripleTree, PTree.addrs],
    ⟨Node.fresh, rfl, rfl, rfl⟩, by simp [tripleTree, triple, PTree.addrs]⟩

theorem bst_single : singleTree.BST := by simp [singleTree, PTree.BST, PTree.keys]

theorem bst_zigzag : zigzagTree.BST := by simp [zigzagTree, PTree.BST, PTree.keys]

theorem bst_triple : tripleTree.BST := by simp [tripleTree, PTree.BST, PTree.keys]

theorem reachable_triple : Reachable triple :=
  .insert 3 3 0 5 (s := ⟨[⟨2, 0, 10, some 1, none⟩, ⟨1, 0, 5, none, none⟩, Node.fresh],
      some 0, some 1, some 0, 2⟩)
    (.insert 3 1 0 5 (s := ⟨[⟨2, 0, 10, none, none⟩, Node.fresh], some 0, some 0, some 0, 1⟩)
      (.insert 3 2 0 10 .empty rfl) rfl) rfl

theorem reachable_tangled : Reachable tangled :=
  .erase 3 2 reachable_triple rfl

theorem shape_single_two : Shape (single.obj.tree twoStore) singleTree :=
  ⟨rfl, ⟨rfl, trivial, trivial⟩, by simp [singleTree, PTree.addrs],
    ⟨Node.fresh, rfl, rfl, rfl⟩, by simp [singleTree, single, Tree.obj, Obj.tree, PTree.addrs]⟩

/-! ## The heap invariant under `PTree.merge`, and `merge` after `split` -/

namespace PTree

theorem merge_prio (l r : PTree) : ∀ q ∈ (l.merge r).prio, q ∈ l.prio ∨ q ∈ r.prio := by
  intro q hq
  cases l with
  | nil => right; simpa using hq
  | node a l1 k v p r1 =>
    cases r with
    | nil => left; simpa using hq
    | node a2 l2 k2 v2 p2 r2 =>
      by_cases hp : p > p2
      · rw [merge_node_gt hp] at hq
        left; simpa [prio] using hq
      · rw [merge_node_le hp] at hq
        right; simpa [prio] using hq

theorem merge_heapOrdered : ∀ (n : Nat) (l r : PTree), l.size + r.size ≤ n →
    l.HeapOrdered → r.HeapOrdered → (l.merge r).HeapOrdered
  | _, l, nil, _, hl, _ => by simpa using hl
  | _, nil, node a l k v p r, _, _, hr => by simpa using hr
  | 0, node a l k v p r, node a2 l2 k2 v2 p2 r2, hn, _, _ => by simp [size] at hn
  | n + 1, node a l k v p r, node a2 l2 k2 v2 p2 r2, hn, hl, hr => by
    simp only [size] at hn
    have hl0 := hl
    have hr0 := hr
    obtain ⟨hl1, hl2, hl3, hl4⟩ := hl
    obtain ⟨hr1, hr2, hr3, hr4⟩ := hr
    by_cases hp : p > p2
    · rw [merge_node_gt hp]
      refine ⟨hl1, ?_, hl3, merge_heapOrdered n r _ (by simp only [size]; omega) hl4 hr0⟩
      intro q hq
      rcases merge_prio _ _ q hq with hq | hq
      · exact hl2 q hq
      · simp only [prio, Option.mem_def, Option.some.injEq] at hq
        omega
    · rw [merge_node_le hp]
      refine ⟨?_, hr2, merge_heapOrdered n _ l2 (by simp only [size]; omega) hl0 hr3, hr4⟩
      intro q hq
      rcases merge_prio _ _ q hq with hq | hq
      · simp only [prio, Option.mem_def, Option.some.injEq] at hq
        omega
      · exact hr1 q hq

theorem prio_mem_items : ∀ {t : PTree} {q : Int}, q ∈ t.prio → ∃ e ∈ t.items, e.2.2 = q
  | nil, _, h => by simp [prio] at h
  | node a l k v p r, q, h => by
    simp only [prio, Option.mem_def, Option.some.injEq] at h
    exact ⟨(k, v, p), by simp [items], h⟩

theorem StrictHeap.all_lt : ∀ {t : PTree} {B : Int}, t.StrictHeap → (∀ q ∈ t.prio, q < B) →
    ∀ e ∈ t.items, e.2.2 < B
  | nil, _, _, _, e, he => by simp [items] at he
  | node a l k v p r, B, hs, hB, e, he => by
    obtain ⟨h1, h2, h3, h4⟩ := hs
    have hp : p < B := hB p (by simp [prio])
    simp only [items, List.mem_append, List.mem_cons] at he
    rcases he with he | he | he
    · exact StrictHeap.all_lt h3 (fun q hq => lt_trans (h1 q hq) hp) e he
    · rw [he]; exact hp
    · exact StrictHeap.all_lt h4 (fun q hq => lt_trans (h2 q hq) hp) e he

theorem split_fst_prio_lt {t : PTree} {B : Int} (x : Int) (h : ∀ e ∈ t.items, e.2.2 < B) :
    ∀ q ∈ (t.split x).1.prio, q < B := by
  intro q hq
  obtain ⟨e, he, rfl⟩ := prio_mem_items hq
  exact h e (by rw [← split_items x t]; exact List.mem_append_left _ he)

theorem split_snd_prio_lt {t : PTree} {B : Int} (x : Int) (h : ∀ e ∈ t.items, e.2.2 < B) :
    ∀ q ∈ (t.split x).2.prio, q < B := by
  intro q hq
  obtain ⟨e, he, rfl⟩ := prio_mem_items hq
  exact h e (by rw [← split_items x t]; exact List.mem_append_right _ he)

/-- On a strictly heap-ordered tree `PTree.merge` undoes `PTree.split`. -/
theorem merge_split (x : Int) : ∀ t : PTree, t.StrictHeap →
    (t.split x).1.merge (t.split x).2 = t
  | nil, _ => by simp [split]
  | node a l k v p r, hs => by
    obtain ⟨h1, h2, h3, h4⟩ := hs
    by_cases hk : x > k
    · have ih := merge_split x r h4
      have hlt := split_snd_prio_lt x (StrictHeap.all_lt h4 h2)
      simp only [split, hk, if_true]
      cases hR : (r.split x).2 with
      | nil =>
        rw [hR] at ih
        simp only [merge_nil_right] at ih ⊢
        rw [ih]
      | node a2 l2 k2 v2 p2 r2 =>
        rw [hR] at ih hlt
        have hp : p > p2 := hlt p2 (by simp [prio])
        rw [merge_node_gt hp, ih]
    · have ih := merge_split x l h3
      have hlt := split_fst_prio_lt x (StrictHeap.all_lt h3 h1)
      simp only [split, hk, if_false]
      cases hL : (l.split x).1 with
      | nil =>
        rw [hL] at ih
        simp only [merge_nil_left] at ih ⊢
        rw [ih]
      | node a2 l2 k2 v2 p2 r2 =>
        rw [hL] at ih hlt
        have hp : ¬ p2 > p := by
          have := hlt p2 (by simp [prio])
          omega
        rw [merge_node_le hp, ih]

end PTree

theorem Models.agree {h h2 : List Node} : ∀ {t : PTree}, Models h t → Models h2 t →
    ∀ x ∈ t.addrs, h2[x]? = h[x]?
  | .nil, _, _, x, hx => by simp [PTree.addrs] at hx
  | .node a l k v p r, hm, hm2, x, hx => by
    obtain ⟨ha, hl, hr⟩ := hm
    obtain ⟨ha2, hl2, hr2⟩ := hm2
    simp only [PTree.addrs, List.mem_append, List.mem_cons] at hx
    rcases hx with hx | hx | hx
    · exact Models.agree hl hl2 x hx
    · rw [hx, ha, ha2]
    · exact Models.agree hr hr2 x hx

/-! ## The successor of a key -/

namespace PTree

theorem cells_key : ∀ {t : PTree} {c : Nat × Int × Int × Int}, c ∈ t.cells → c.2.1 ∈ t.keys
  | nil, _, h => by simp [cells] at h
  | node a l k v p r, c, h => by
    simp only [cells, List.mem_append, List.mem_cons] at h
    simp only [keys, List.mem_append, List.mem_cons]
    rcases h with h | h | h
    · exact Or.inl (cells_key h)
    · exact Or.inr (Or.inl (by rw [h]))
    · exact Or.inr (Or.inr (cells_key h))

theorem lookup_of_cell : ∀ {t : PTree} {c : Nat × Int × Int × Int}, t.BST → c ∈ t.cells →
    t.lookup c.2.1 = some c.1
  | nil, _, _, h => by simp [cells] at h
  | node a l k v p r, c, hb, h => by
    obtain ⟨hl, hr, hbl, hbr⟩ := hb
    simp only [cells, List.mem_append, List.mem_cons] at h
    rcases h with h | h | h
    · have hlt := hl _ (cells_key h)
      have hne : k ≠ c.2.1 := by omega
      simp only [lookup, ne_eq, hne, not_false_eq_true, if_true, hlt]
      exact lookup_of_cell hbl h
    · subst h; simp [lookup]
    · have hgt := hr _ (cells_key h)
      have hne : k ≠ c.2.1 := by omega
      have hnlt : ¬ c.2.1 < k := by omega
      simp only [lookup, ne_eq, hne, not_false_eq_true, if_true, hnlt, if_false]
      exact lookup_of_cell hbr h

theorem above_cand (x : Int) : ∀ (t : PTree) (cand : Option (Nat × Int)),
    t.above x cand = match t.above x none with
      | some b => some b
      | none => cand
  | nil, cand => by simp [above]
  | node a l k v p r, cand => by
    by_cases hx : x < k
    · simp only [above, hx, if_true]
      rw [above_cand x l (some (a, k))]
      cases l.above x none <;> rfl
    · simp only [above, hx, if_false]
      exact above_cand x r cand

theorem above_none (x : Int) : ∀ t : PTree, t.BST → t.above x none = none →
    ∀ y ∈ t.keys, y ≤ x
  | nil, _, _ => by simp [keys]
  | node a l k v p r, hb, h => by
    obtain ⟨hl, hr, hbl, hbr⟩ := hb
    by_cases hx : x < k
    · simp only [above, hx, if_true] at h
      rw [above_cand] at h
      cases hq : l.above x none <;> simp [hq] at h
    · simp only [above, hx, if_false] at h
      have ih := above_none x r hbr h
      intro y hy
      simp only [keys, List.mem_append, List.mem_cons] at hy
      rcases hy with hy | hy | hy
      · have := hl y hy; omega
      · omega
      · exact ih y hy

theorem above_some (x : Int) : ∀ (t : PTree) (b : Nat × Int), t.BST →
    t.above x none = some b →
    (∃ v p, (b.1, b.2, v, p) ∈ t.cells) ∧ x < b.2 ∧ ∀ y ∈ t.keys, x < y → b.2 ≤ y
  | nil, _, _, h => by simp [above] at h
  | node a l k v p r, b, hb, h => by
    obtain ⟨hl, hr, hbl, hbr⟩ := hb
    by_cases hx : x < k
    · simp only [above, hx, if_true] at h
      rw [above_cand] at h
      cases hq : l.above x none with
      | some b2 =>
        simp only [hq, Option.some.injEq] at h
        subst h
        obtain ⟨⟨v2, p2, hc⟩, h2, h3⟩ := above_some x l b2 hbl hq
        refine ⟨⟨v2, p2, by simp [cells, hc]⟩, h2, ?_⟩
        have hbk : b2.2 < k := hl _ (cells_key hc)
        intro y hy hxy
        simp only [keys, List.mem_append, List.mem_cons] at hy
        rcases hy with hy | hy | hy
        · exact h3 y hy hxy
        · omega
        · have := hr y hy; omega
      | none =>
        simp only [hq, Option.some.injEq] at h
        subst h
        have hall := above_none x l hbl hq
        refine ⟨⟨v, p, by simp [cells]⟩, hx, ?_⟩
        intro y hy hxy
        simp only [keys, List.mem_append, List.mem_cons] at hy
        rcases hy with hy | hy | hy
        · have := hall y hy; omega
        · omega
        · have := hr y hy; omega
    · simp only [above, hx, if_false] at h
      obtain ⟨⟨v2, p2, hc⟩, h2, h3⟩ := above_some x r b hbr h
      refine ⟨⟨v2, p2, by simp [cells, hc]⟩, h2, ?_⟩
      intro y hy hxy
      simp only [keys, List.mem_append, List.mem_cons] at hy
      rcases hy with hy | hy | hy
      · have := hl y hy; omega
      · omega
      · exact h3 y hy hxy

/-- Below every key of a tree, the descent ends at the first node. -/
theorem above_first (x : Int) : ∀ (a : Nat) (l : PTree) (k v p : Int) (r : PTree)
    (cand : Option (Nat × Int)), (∀ y ∈ (node a l k v p r).keys, x < y) →
    ∃ b, (node a l k v p r).above x cand = some b ∧ (node a l k v p r).addrs.head? = some b.1
  | a, nil, k, v, p, r, cand, h => by
    have hx : x < k := h k (by simp [keys])
    exact ⟨(a, k), by simp [above, hx], by simp [addrs]⟩
  | a, node a2 l2 k2 v2 p2 r2, k, v, p, r, cand, h => by
    have hx : x < k := h k (by simp [keys])
    obtain ⟨b, hb, hh⟩ := above_first x a2 l2 k2 v2 p2 r2 (some (a, k))
      (fun y hy => h y (by
        simp only [keys, List.mem_append, List.mem_cons] at hy ⊢
        exact Or.inl hy))
    refine ⟨b, ?_, ?_⟩
    · rw [above]; simp only [hx, if_true]; exact hb
    · simp only [addrs] at hh ⊢
      rw [List.head?_append_of_ne_nil _ (by simp)]
      exact hh

end PTree

/-- The constructor of a cursor at a node of a well-formed search tree. -/
theorem create_models {s : Tree} {t : PTree} (hs : Shape s t) {x : Int} {b : Nat}
    (hq : t.lookup x = some b) (fuel : Nat) (hf : t.size ≤ fuel) :
    Iterator.create fuel s (some b) = .ok ⟨b, t.chain x []⟩ := by
  obtain ⟨n, hn, hnk⟩ := hs.models.lookup_key hq
  have hne : b ≠ s.reserved := fun e => hs.apart (e ▸ PTree.lookup_mem _ hq)
  have hw := walkTo_models x b _ fuel s.heap [] hs.models hs.nodup hq hf
  rw [← hs.root] at hw
  simp [Iterator.create, deref_of_get hn, hne, hnk, hw]

/-- One step forward from the cursor the constructor builds at the node of key `x`, inside
a subtree `u` entered with the stack `acc`: the cursor lands on the successor inside `u`
when there is one; otherwise the node has no right child and the loop pops the stack back
to `acc`, arriving from the root of `u`. -/
theorem next_in_subtree (s : Tree) (x : Int) : ∀ (u : PTree) (acc : List Nat) (a : Nat),
    Models s.heap u → u.addrs.Nodup → s.reserved ∉ u.addrs → u.BST → u.lookup x = some a →
    (∀ b, u.above x none = some b → ∀ fuel, u.size ≤ fuel →
      ∃ ps, Iterator.next fuel s ⟨a, u.chain x acc⟩ = .ok ⟨b.1, ps⟩) ∧
    (u.above x none = none → (∃ n, s.heap[a]? = some n ∧ n.right = none) ∧
      ∃ c d, u.ptr = some c ∧ d < u.size ∧
        ∀ f, climb (f + d) s.heap a (u.chain x acc) = climb f s.heap c acc)
  | .nil, _, _, _, _, _, _, hq => by simp [PTree.lookup] at hq
  | .node c l kc vc pc r, acc, a, hm, hnd, hres, hb, hq => by
    obtain ⟨hc, hml, hmr⟩ := hm
    obtain ⟨hl, hr, hbl, hbr⟩ := hb
    simp only [PTree.addrs] at hnd hres
    have hd := List.nodup_append.1 hnd
    have hcl : c ∉ l.addrs := fun hx => hd.2.2 hx (List.mem_cons_self _ _)
    have hcr : c ∉ r.addrs := (List.nodup_cons.1 hd.2.1).1
    have hndr : r.addrs.Nodup := (List.nodup_cons.1 hd.2.1).2
    have hresl : s.reserved ∉ l.addrs := fun hx => hres (List.mem_append_left _ hx)
    have hresr : s.reserved ∉ r.addrs := fun hx =>
      hres (List.mem_append_right _ (List.mem_cons_of_mem _ hx))
    have hresc : c ≠ s.reserved := fun e =>
      hres (List.mem_append_right _ (e ▸ List.mem_cons_self _ _))
    simp only [PTree.lookup] at hq
    by_cases hk : kc = x
    · -- the cursor is at the root of the subtree
      subst hk
      simp only [ne_eq, not_true_eq_false, if_false, Option.some.injEq] at hq
      subst hq
      simp only [PTree.above, lt_irrefl, if_false, PTree.chain, if_true, PTree.size,
        PTree.ptr_node]
      cases r with
      | nil =>
        refine ⟨fun b hb => by simp [PTree.above] at hb, fun _ => ⟨⟨_, hc, rfl⟩, c, 0, rfl, by omega, fun f => rfl⟩⟩
      | node c2 l2 k2 v2 p2 r2 =>
        obtain ⟨b0, hb0, hh0⟩ := PTree.above_first kc c2 l2 k2 v2 p2 r2 none hr
        refine ⟨fun b hb fuel hf => ?_, fun hn => by rw [hb0] at hn; simp at hn⟩
        rw [hb0] at hb
        injection hb with hb
        subst hb
        obtain ⟨b1, hb1, hh1⟩ := leftmost_models fuel c2 l2 k2 v2 p2 r2 s.heap hmr (by omega)
        rw [hh0] at hh1
        injection hh1 with hh1
        refine ⟨c :: acc, ?_⟩
        simp [Iterator.next, hresc, deref_of_get hc, hb1, hh1]
    · by_cases hlt : x < kc
      · -- the cursor is in the left subtree
        simp only [ne_eq, hk, not_false_eq_true, if_true, hlt] at hq
        obtain ⟨ih1, ih2⟩ := next_in_subtree s x l (c :: acc) a hml hd.1 hresl hbl hq
        have hal : a ∈ l.addrs := PTree.lookup_mem l hq
        have hares : a ≠ s.reserved := fun e => hresl (e ▸ hal)
        simp only [PTree.above, hlt, if_true, PTree.chain, hk, if_false, PTree.size,
          PTree.ptr_node]
        rw [PTree.above_cand]
        cases hab : l.above x none with
        | some b2 =>
          refine ⟨fun b hb fuel hf => ?_, fun hn => by simp at hn⟩
          simp only [Option.some.injEq] at hb
          subst hb
          exact ih1 b2 hab fuel (by omega)
        | none =>
          refine ⟨fun b hb fuel hf => ?_, fun hn => by simp at hn⟩
          simp only [Option.some.injEq] at hb
          subst hb
          obtain ⟨⟨n, hn, hnr⟩, c2, d, hptr, hdlt, hcl2⟩ := ih2 hab
          obtain ⟨f, rfl⟩ : ∃ f, fuel = (f + 1) + d := ⟨fuel - d - 1, by omega⟩
          refine ⟨acc, ?_⟩
          simp only [Iterator.next, hares, if_false, deref_of_get hn, hnr, hcl2 (f + 1)]
          simp [climb, deref_of_get hc, hptr]
      · -- the cursor is in the right subtree
        simp only [ne_eq, hk, not_false_eq_true, if_true, hlt, if_false] at hq
        obtain ⟨ih1, ih2⟩ := next_in_subtree s x r (c :: acc) a hmr hndr hresr hbr hq
        simp only [PTree.above, hlt, if_false, PTree.chain, hk, PTree.size, PTree.ptr_node]
        refine ⟨fun b hb fuel hf => ih1 b hb fuel (by omega), fun hn => ?_⟩
        obtain ⟨hnode, c2, d, hptr, hdlt, hcl2⟩ := ih2 hn
        refine ⟨hnode, c, d + 1, rfl, by omega, fun f => ?_⟩
        have hne : l.ptr ≠ some c2 := by
          intro e
          have h1 : c2 ∈ r.addrs := by
            cases r with
            | nil => simp at hptr
            | node _ _ _ _ _ _ =>
              simp only [PTree.ptr_node, Option.some.injEq] at hptr
              subst hptr; simp [PTree.addrs]
          have h2 : c2 ∈ l.addrs := by
            cases l with
            | nil => simp at e
            | node _ _ _ _ _ _ =>
              simp only [PTree.ptr_node, Option.some.injEq] at e
              subst e; simp [PTree.addrs]
          exact hd.2.2 h2 (List.mem_cons_of_mem _ h1)
        rw [show f + (d + 1) = (f + 1) + d by omega, hcl2 (f + 1)]
        simp [climb, deref_of_get hc, hne]

/-! ## Uniqueness of the treap of a set of items -/

namespace PTree

theorem bst_keys_sorted : ∀ t : PTree, t.BST → t.keys.Pairwise (· < ·)
  | nil, _ => by simp [keys]
  | node a l k v p r, hb => by
    obtain ⟨hl, hr, hbl, hbr⟩ := hb
    simp only [keys]
    refine List.pairwise_append.2 ⟨bst_keys_sorted l hbl,
      List.pairwise_cons.2 ⟨hr, bst_keys_sorted r hbr⟩, ?_⟩
    intro x hx y hy
    rcases List.mem_cons.1 hy with hy | hy
    · rw [hy]; exact hl x hx
    · exact lt_trans (hl x hx) (hr y hy)

theorem bst_items_sorted (t : PTree) (hb : t.BST) :
    t.items.Pairwise (fun e1 e2 => e1.1 < e2.1) := by
  have h := bst_keys_sorted t hb
  rw [keys_eq_items, List.pairwise_map] at h
  exact h

/-- Two search trees with the same items, up to order, have the same in-order sequence. -/
theorem items_eq_of_perm {t1 t2 : PTree} (h1 : t1.BST) (h2 : t2.BST)
    (hp : t1.items.Perm t2.items) : t1.items = t2.items :=
  List.Perm.eq_of_sorted (fun a b _ _ hab hba => absurd hab (by omega))
    (bst_items_sorted t1 h1) (bst_items_sorted t2 h2) hp

theorem HeapOrdered.all_le : ∀ {t : PTree} {B : Int}, t.HeapOrdered → (∀ q ∈ t.prio, q ≤ B) →
    ∀ e ∈ t.items, e.2.2 ≤ B
  | nil, _, _, _, e, he => by simp [items] at he
  | node a l k v p r, B, hs, hB, e, he => by
    obtain ⟨h1, h2, h3, h4⟩ := hs
    have hp : p ≤ B := hB p (by simp [prio])
    simp only [items, List.mem_append, List.mem_cons] at he
    rcases he with he | he | he
    · exact HeapOrdered.all_le h3 (fun q hq => le_trans (h1 q hq) hp) e he
    · rw [he]; exact hp
    · exact HeapOrdered.all_le h4 (fun q hq => le_trans (h2 q hq) hp) e he

/-- The priority of the root of a heap-ordered tree is the largest. -/
theorem HeapOrdered.root_max {a : Nat} {l : PTree} {k v p : Int} {r : PTree}
    (h : (node a l k v p r).HeapOrdered) : ∀ e ∈ (node a l k v p r).items, e.2.2 ≤ p :=
  HeapOrdered.all_le h (fun q hq => by
    simp only [prio, Option.mem_def, Option.some.injEq] at hq
    omega)

end PTree

/-- In a list without two elements of the same priority, an element sits at one place. -/
theorem split_at_unique {α β : Type} (f : α → β) : ∀ (l1 l2 : List α) (a b : α) (r1 r2 : List α),
    l1 ++ a :: r1 = l2 ++ b :: r2 → f a = f b → ((l1 ++ a :: r1).map f).Nodup →
    l1 = l2 ∧ a = b ∧ r1 = r2
  | [], [], a, b, r1, r2, h, _, _ => by
    simp only [List.nil_append, List.cons.injEq] at h
    exact ⟨rfl, h.1, h.2⟩
  | [], c :: l2, a, b, r1, r2, h, hf, hn => by
    simp only [List.nil_append, List.cons_append, List.cons.injEq] at h
    simp only [List.nil_append, List.map_cons, List.nodup_cons] at hn
    exact absurd (by rw [hf, h.2]; simp) hn.1
  | c :: l1, [], a, b, r1, r2, h, hf, hn => by
    simp only [List.nil_append, List.cons_append, List.cons.injEq] at h
    simp only [List.cons_append, List.map_cons, List.nodup_cons] at hn
    exact absurd (by rw [h.1, ← hf]; simp) hn.1
  | c :: l1, d :: l2, a, b, r1, r2, h, hf, hn => by
    simp only [List.cons_append, List.cons.injEq] at h
    simp only [List.cons_append, List.map_cons, List.nodup_cons] at hn
    obtain ⟨e1, e2, e3⟩ := split_at_unique f l1 l2 a b r1 r2 h.2 hf hn.2
    exact ⟨by rw [h.1, e1], e2, e3⟩

/-- Two heap-ordered trees with the same in-order sequence of items, no two of the same
priority, have the same shape. -/
theorem strip_eq_of_items : ∀ (t1 t2 : PTree), t1.HeapOrdered → t2.HeapOrdered →
    t1.items = t2.items → (t1.items.map (fun e => e.2.2)).Nodup → t1.strip = t2.strip
  | .nil, .nil, _, _, _, _ => rfl
  | .nil, .node _ _ _ _ _ _, _, _, h, _ => by simp [PTree.items] at h
  | .node _ _ _ _ _ _, .nil, _, _, h, _ => by simp [PTree.items] at h
  | .node a1 l1 k1 v1 p1 r1, .node a2 l2 k2 v2 p2 r2, h1, h2, he, hn => by
    have m1 := PTree.HeapOrdered.root_max h1
    have m2 := PTree.HeapOrdered.root_max h2
    have hp : p1 = p2 := by
      have e1 := m1 (k2, v2, p2) (by rw [he]; simp [PTree.items])
      have e2 := m2 (k1, v1, p1) (by rw [← he]; simp [PTree.items])
      simp only at e1 e2
      omega
    simp only [PTree.items] at he hn
    obtain ⟨el, ex, er⟩ := split_at_unique (fun e : Int × Int × Int => e.2.2) _ _ _ _ _ _ he
      hp hn
    simp only [Prod.mk.injEq] at ex
    obtain ⟨rfl, rfl, _⟩ := ex
    subst hp
    rw [List.map_append, List.map_cons] at hn
    have hnl : (l1.items.map (fun e => e.2.2)).Nodup := (List.nodup_append.1 hn).1
    have hnr : (r1.items.map (fun e => e.2.2)).Nodup :=
      (List.nodup_cons.1 (List.nodup_append.1 hn).2.1).2
    simp only [PTree.strip]
    rw [strip_eq_of_items l1 l2 h1.2.2.1 h2.2.2.1 el hnl,
      strip_eq_of_items r1 r2 h1.2.2.2 h2.2.2.2 er hnr]

/-! ## Sequences of inserts -/

/-- A sequence of inserts of new, pairwise distinct keys that are `int` values into a
reachable well-formed search tree returns, and the result is a reachable well-formed
search tree that holds the old items and the inserted ones. -/
theorem insertAll_models (fuel : Nat) : ∀ (xs : List (Int × Int × Nat)) (s : Tree) (t : PTree),
    Shape s t → t.BST → Reachable s → (xs.map (fun e => e.1)).Nodup →
    (∀ e ∈ xs, e.1 ∉ t.keys) → (∀ e ∈ xs, keyToInt e.1 = e.1) → t.size + xs.length ≤ fuel →
    ∃ s2 t2, insertAll fuel s xs = .ok s2 ∧ Shape s2 t2 ∧ t2.BST ∧ Reachable s2 ∧
      t2.items.Perm (xs.map stored ++ t.items)
  | [], s, t, hs, hb, hr, _, _, _, _ => ⟨s, t, rfl, hs, hb, hr, by simp⟩
  | (k, v, d) :: xs, s, t, hs, hb, hr, hnd, hnew, hint, hf => by
    simp only [List.map_cons, List.nodup_cons, List.length_cons] at hnd hf
    have hk : k ∉ t.keys := hnew (k, v, d) (List.mem_cons_self _ _)
    have hkk : keyToInt k = k := hint (k, v, d) (List.mem_cons_self _ _)
    obtain ⟨s1, hins, hs1, _⟩ := insert_models hs hb hk v d fuel (by omega)
    rw [hkk] at hs1
    have hb1 := PTree.inserted_bst hb s.reserved v (toInt32 d) hk
    have hitems : (t.inserted k s.reserved k v (toInt32 d)).items.Perm
        ((k, v, toInt32 d) :: t.items) := by
      rw [PTree.inserted_items, ← PTree.split_items k t]
      exact List.perm_middle
    have hnew1 : ∀ e ∈ xs, e.1 ∉ (t.inserted k s.reserved k v (toInt32 d)).keys := by
      intro e he hmem
      rw [PTree.keys_eq_items] at hmem
      obtain ⟨i, hi, hie⟩ := List.mem_map.1 hmem
      rcases List.mem_cons.1 (hitems.mem_iff.1 hi) with h | h
      · rw [h] at hie
        exact hnd.1 (List.mem_map.2 ⟨e, he, hie.symm⟩)
      · exact hnew e (List.mem_cons_of_mem _ he)
          (by rw [PTree.keys_eq_items]; exact List.mem_map.2 ⟨i, h, hie⟩)
    obtain ⟨s2, t2, hall, hs2, hb2, hr2, hp2⟩ := insertAll_models fuel xs s1 _ hs1 hb1
      (Reachable.insert fuel k v d hr hins) hnd.2 hnew1
      (fun e he => hint e (List.mem_cons_of_mem _ he))
      (by rw [PTree.inserted_size]; omega)
    refine ⟨s2, t2, by simp [insertAll, hins, hall], hs2, hb2, hr2, ?_⟩
    refine hp2.trans ?_
    simp only [List.map_cons, stored, List.cons_append]
    exact (List.Perm.append_left _ hitems).trans List.perm_middle

/-! ## The two renderings of `operator++` agree -/

theorem climb_eq_climbState : ∀ (fuel : Nat) (h : List Node) (prev : Nat) (ps : List Nat),
    climb fuel h prev ps = match climbState fuel h prev ps with
      | (ps2, .ok c) => .ok (c, ps2)
      | (_, .error e) => .error e
  | 0, _, _, _ => rfl
  | _ + 1, _, _, [] => rfl
  | f + 1, h, prev, c :: ps => by
    simp only [climb, climbState]
    cases hd : deref h (some c) with
    | error e => rfl
    | ok nc =>
      simp only
      by_cases hl : nc.left = some prev
      · simp [hl]
      · simp only [hl, if_false]
        exact climb_eq_climbState f h c ps

/-- The result of `Iterator.next` is the outcome of `Iterator.step`, with the cursor it
leaves when the call returns. -/
theorem next_eq_step (fuel : Nat) (s : Tree) (it : Iterator) :
    it.next fuel s = match it.step fuel s with
      | (it2, .ok _) => .ok it2
      | (_, .error e) => .error e := by
  unfold Iterator.next Iterator.step
  by_cases hr : it.v = s.reserved
  · simp [hr]
  · simp only [hr, if_false]
    cases hd : deref s.heap (some it.v) with
    | error e => rfl
    | ok n =>
      simp only
      cases hright : n.right with
      | none =>
        simp only
        rw [climb_eq_climbState]
        rcases hc : climbState fuel s.heap it.v it.parents with ⟨ps, res⟩
        cases res <;> rfl
      | some r =>
        simp only
        cases leftmost fuel s.heap r <;> rfl

/-! ## `insert` of a key that is an `int` -/

/-- On a well-formed search tree that lacks the key `k`, an `int` value, `insert(k, v)`
returns, and the container is again a well-formed search tree whose in-order sequence of
(key, value, priority) triples is the previous sequence with the new triple placed
between the smaller and the larger keys; so is the sequence of (key, value) entries. -/
theorem insert_int_key_adds_one_entry (s : Tree) (t : PTree) (hs : Shape s t) (hb : t.BST)
    (k : Int) (hk : k ∉ t.keys) (hint : keyToInt k = k) (v : Int) (drawn fuel : Nat)
    (hf : t.size < fuel) :
    ∃ s2 t2, s.insert fuel k v drawn = .ok s2 ∧ Shape s2 t2 ∧ t2.BST ∧
      ∃ before after, t.items = before ++ after ∧
        t2.items = before ++ (k, v, toInt32 drawn) :: after ∧
        (∀ e ∈ before, e.1 < k) ∧ (∀ e ∈ after, k < e.1) ∧
        t.entries = before.map (fun e => (e.1, e.2.1)) ++ after.map (fun e => (e.1, e.2.1)) ∧
        t2.entries = before.map (fun e => (e.1, e.2.1)) ++ (k, v) ::
          after.map (fun e => (e.1, e.2.1)) := by
  obtain ⟨s2, hins, hs2, _⟩ := insert_models hs hb hk v drawn fuel hf
  rw [hint] at hs2
  obtain ⟨_, _, h3, h4⟩ := PTree.split_bst k t hb
  refine ⟨s2, _, hins, hs2, PTree.inserted_bst hb _ _ _ hk, (t.split k).1.items,
    (t.split k).2.items, (PTree.split_items k t).symm, PTree.inserted_items _ _ _ _ _ _,
    ?_, ?_, ?_, ?_⟩
  · intro e he
    exact h3 e.1 (by rw [PTree.keys_eq_items]; exact List.mem_map_of_mem _ he)
  · intro e he
    have hmem : e.1 ∈ (t.split k).2.keys := by
      rw [PTree.keys_eq_items]; exact List.mem_map_of_mem _ he
    have hle := h4 e.1 hmem
    have hne : e.1 ≠ k := fun heq =>
      hk (by rw [← PTree.split_keys k t]; exact List.mem_append_right _ (heq ▸ hmem))
    omega
  · rw [PTree.entries_eq_items, ← PTree.split_items k t, List.map_append]
  · rw [PTree.entries_eq_items, PTree.inserted_items, List.map_append, List.map_cons]

/-- For every list of items with pairwise distinct keys that are `int` values and
pairwise distinct priorities and every reordering of it, the two sequences of inserts
into the empty container return, each result is a well-formed search tree that holds the
items, and the two trees have the same shape with the same key, value and priority at
every position. -/
theorem insert_order_irrelevant_int_keys (xs ys : List (Int × Int × Nat))
    (hperm : ys.Perm xs) (hkeys : (xs.map (fun e => e.1)).Nodup)
    (hint : ∀ e ∈ xs, keyToInt e.1 = e.1)
    (hprio : (xs.map (fun e => toInt32 e.2.2)).Nodup) (fuel : Nat) (hf : xs.length ≤ fuel) :
    ∃ s1 s2 t1 t2, insertAll fuel empty xs = .ok s1 ∧ insertAll fuel empty ys = .ok s2 ∧
      Shape s1 t1 ∧ Shape s2 t2 ∧ t1.items.Perm (xs.map stored) ∧
      t2.items.Perm (xs.map stored) ∧ t1.strip = t2.strip := by
  have hkeys2 : (ys.map (fun e => e.1)).Nodup := ((hperm.map _).nodup_iff).2 hkeys
  obtain ⟨s1, t1, hi1, hs1, hb1, hr1, hp1⟩ := insertAll_models fuel xs empty .nil shape_empty
    trivial Reachable.empty hkeys (fun _ _ => by simp [PTree.keys]) hint
    (by simp only [PTree.size]; omega)
  obtain ⟨s2, t2, hi2, hs2, hb2, hr2, hp2⟩ := insertAll_models fuel ys empty .nil shape_empty
    trivial Reachable.empty hkeys2 (fun _ _ => by simp [PTree.keys])
    (fun e he => hint e (hperm.mem_iff.1 he))
    (by simp only [PTree.size]; rw [hperm.length_eq]; omega)
  simp only [PTree.items, List.append_nil] at hp1 hp2
  have hp2x : t2.items.Perm (xs.map stored) := hp2.trans (hperm.map stored)
  have hitems : t1.items = t2.items := PTree.items_eq_of_perm hb1 hb2 (hp1.trans hp2x.symm)
  have hnd : (t1.items.map (fun e => e.2.2)).Nodup := by
    refine ((hp1.map _).nodup_iff).2 ?_
    rw [List.map_map]
    exact hprio
  exact ⟨s1, s2, t1, t2, hi1, hi2, hs1, hs2, hp1, hp2x,
    strip_eq_of_items t1 t2 (hs1.models.heapOrdered hr1.inv.edges)
      (hs2.models.heapOrdered hr2.inv.edges) hitems hnd⟩

theorem shape_ten : Shape ten tenTree :=
  ⟨rfl, ⟨rfl, trivial, trivial⟩, by simp [tenTree, PTree.addrs],
    ⟨Node.fresh, rfl, rfl, rfl⟩, by simp [tenTree, ten, PTree.addrs]⟩

theorem shape_wide : Shape wide wideTree :=
  ⟨rfl, ⟨rfl, ⟨rfl, trivial, trivial⟩, trivial⟩, by simp [wideTree, PTree.addrs],
    ⟨Node.fresh, rfl, rfl, rfl⟩, by simp [wideTree, wide, PTree.addrs]⟩

theorem shape_wideRev : Shape wideRev wideRevTree :=
  ⟨rfl, ⟨rfl, trivial, rfl, trivial, trivial⟩, by simp [wideRevTree, PTree.addrs],
    ⟨Node.fresh, rfl, rfl, rfl⟩, by simp [wideRevTree, wideRev, PTree.addrs]⟩

/-! # The claims -/

/-- C1 (the code departs from it): `erase` of a stored key does not remove the entry.
On the container that holds the single entry (1, 0), `erase(1)` returns with the state
unchanged for every fuel that lets it return; afterwards `find(1)` is still the cursor at
the node of key 1, which differs from `end()`, and the entry is still below the root. -/
theorem erase_leaves_entry :
    empty.insert 1 1 0 0 = .ok single ∧ Shape single singleTree ∧ singleTree.BST ∧
    singleTree.entries = [(1, 0)] ∧
    ∀ fuel : Nat, single.erase (fuel + 1) 1 = .ok single ∧
      single.find (fuel + 1) 1 = .ok ⟨0, []⟩ ∧ single.end (fuel + 1) = .ok ⟨1, []⟩ ∧
      Iterator.eq ⟨0, []⟩ ⟨1, []⟩ = false :=
  ⟨rfl, shape_single, bst_single, rfl, fun _ => ⟨rfl, rfl, rfl, rfl⟩⟩

/-- C2 (the code departs from it): `insert` misplaces a key that is not an `int`.  The
call `split(root, key)` converts the key to the parameter `int k` of `split`, so the key
4294967301 is split at 5.  In the container that holds the entry (10, 0) the new node
becomes the left child of the node of key 10: the container unfolds to a tree whose
in-order keys are 4294967301, 10, which is not a search tree, and `find(4294967301)`
returns `end()`. -/
theorem insert_misplaces_wide_key :
    empty.insert 1 10 0 100 = .ok ten ∧ Shape ten tenTree ∧ tenTree.BST ∧
    (4294967301 : Int) ∉ tenTree.keys ∧ keyToInt 4294967301 = 5 ∧
    Shape wide wideTree ∧ wideTree.entries = [(4294967301, 0), (10, 0)] ∧ ¬ wideTree.BST ∧
    ∀ fuel : Nat, ten.insert (fuel + 2) 4294967301 0 90 = .ok wide ∧
      wide.find (fuel + 2) 4294967301 = .ok ⟨2, []⟩ ∧ wide.end (fuel + 2) = .ok ⟨2, []⟩ :=
  ⟨rfl, shape_ten, by simp [tenTree, PTree.BST, PTree.keys],
    by simp [tenTree, PTree.keys], rfl, shape_wide, rfl,
    by simp [wideTree, PTree.BST, PTree.keys], fun _ => ⟨rfl, rfl, rfl⟩⟩

/-- C3 (the code departs from it): the walk from `begin()` skips a key.  After the inserts
of 10, 1, 5, 3 with the priorities 100, 90, 80, 70 the container holds the keys
1, 3, 5, 10; the cursor from `begin()` is at key 1, one step forward puts it at key 3
with only the nodes of the keys 1 and 10 on its stack, the next step puts it at key 10, so
key 5 is never visited; the step after that calls `top()` on the empty stack instead of
reaching `end()`. -/
theorem walk_skips_key :
    (empty.insert 4 10 0 100 >>= fun s => s.insert 4 1 0 90 >>= fun s =>
      s.insert 4 5 0 80 >>= fun s => s.insert 4 3 0 70) = .ok zigzag ∧
    Shape zigzag zigzagTree ∧ zigzagTree.keys = [1, 3, 5, 10] ∧
    ∀ fuel : Nat, zigzag.begin (fuel + 2) = .ok ⟨1, [0]⟩ ∧
      Iterator.get zigzag ⟨1, [0]⟩ = .ok (1, 0) ∧
      Iterator.next (fuel + 2) zigzag ⟨1, [0]⟩ = .ok ⟨3, [1, 0]⟩ ∧
      Iterator.get zigzag ⟨3, [1, 0]⟩ = .ok (3, 0) ∧
      Iterator.next (fuel + 2) zigzag ⟨3, [1, 0]⟩ = .ok ⟨0, []⟩ ∧
      Iterator.get zigzag ⟨0, []⟩ = .ok (10, 0) ∧
      Iterator.next (fuel + 2) zigzag ⟨0, []⟩ = .error .emptyStack :=
  ⟨rfl, shape_zigzag, rfl, fun _ => ⟨rfl, rfl, rfl, rfl, rfl, rfl, rfl⟩⟩

/-- C4 (the code departs from it): `erase` breaks the BST invariant.  From the container
with the root 2 and the children 1 and 3, `erase(2)` returns the container `tangled`, in
which the node of key 1 has become the left child of the node of key 3 while the node of
key 2 is still the root: the graph below the root has no unfolding that satisfies the BST
invariant. -/
theorem erase_breaks_bst :
    Reachable triple ∧ Shape triple tripleTree ∧ tripleTree.BST ∧
    (∀ fuel : Nat, triple.erase (fuel + 2) 2 = .ok tangled) ∧ Reachable tangled ∧
    ∀ t : PTree, tangled.root = t.ptr → Models tangled.heap t → ¬ t.BST := by
  refine ⟨reachable_triple, shape_triple, bst_triple, fun _ => rfl, reachable_tangled, ?_⟩
  intro t hr hm hb
  have hm0 : Models tangled.heap tangledTree :=
    ⟨rfl, ⟨rfl, trivial, trivial⟩, rfl, ⟨rfl, trivial, trivial⟩, trivial⟩
  have ht : t = tangledTree := Models.unique hm hm0 hr.symm
  subst ht
  simp [tangledTree, PTree.BST, PTree.keys] at hb

/-- C5: in every container reachable from the empty one by `insert` and `erase` calls that
return, with any drawn priorities, every node reachable from the root is stored and its
priority is at least the priority of each of its children; every unfolding of the graph
below the root is heap-ordered. -/
theorem heap_invariant_reachable (s : Tree) (hr : Reachable s) :
    (∀ a : Nat, Reach s a → ∃ n : Node, s.heap[a]? = some n ∧
      ∀ c : Nat, (n.left = some c ∨ n.right = some c) →
        ∃ m : Node, s.heap[c]? = some m ∧ m.priority ≤ n.priority) ∧
    (∀ t : PTree, s.root = t.ptr → Models s.heap t → t.HeapOrdered) := by
  have hi := hr.inv
  refine ⟨fun a ha => ?_, fun t _ hm => hm.heapOrdered hi.edges⟩
  obtain ⟨_, n, hn⟩ := ha.stored hi
  refine ⟨n, hn, fun c hc => ?_⟩
  obtain ⟨_, m, hm, hle⟩ := hi.edges a n hn c hc
  exact ⟨m, hm, hle⟩

/-- Witness of C5: the container left by three inserts and one `erase`. -/
theorem heap_invariant_reachable_witness :
    Reachable tangled ∧
    (∀ a : Nat, Reach tangled a → ∃ n : Node, tangled.heap[a]? = some n ∧
      ∀ c : Nat, (n.left = some c ∨ n.right = some c) →
        ∃ m : Node, tangled.heap[c]? = some m ∧ m.priority ≤ n.priority) ∧
    (∀ t : PTree, tangled.root = t.ptr → Models tangled.heap t → t.HeapOrdered) :=
  ⟨reachable_tangled, heap_invariant_reachable tangled reachable_tangled⟩

/-- C6: on a well-formed search tree `find(k)` returns; when a node has the key `k` the
cursor references a node of the tree whose key is `k`, and the cursor equals `end()`
exactly when no node has the key `k`. -/
theorem find_returns_node_or_end (s : Tree) (t : PTree) (hs : Shape s t) (hb : t.BST)
    (k : Int) (fuel : Nat) (hf : t.size ≤ fuel) :
    ∃ it e, s.find fuel k = .ok it ∧ s.end fuel = .ok e ∧
      (k ∈ t.keys → it.v ∈ t.addrs ∧ ∃ n : Node, s.heap[it.v]? = some n ∧ n.key = k) ∧
      (it.eq e = true ↔ k ∉ t.keys) := by
  have hfind := find_models hs k fuel hf
  have hend : s.end fuel = .ok ⟨s.reserved, []⟩ := create_sentinel hs fuel
  cases hq : t.lookup k with
  | none =>
    have hk := (PTree.lookup_none_iff k t hb).1 hq
    rw [hq] at hfind
    exact ⟨_, _, hfind, hend, fun h => absurd h hk, by simp [Iterator.eq, hk]⟩
  | some b =>
    have hk : k ∈ t.keys := by
      by_contra hk
      rw [(PTree.lookup_none_iff k t hb).2 hk] at hq
      simp at hq
    rw [hq] at hfind
    have hmem := PTree.lookup_mem t hq
    have hne : b ≠ s.reserved := fun e => hs.apart (e ▸ hmem)
    refine ⟨_, _, hfind, hend, fun _ => ⟨hmem, hs.models.lookup_key hq⟩, ?_⟩
    simp [Iterator.eq, hne, hk]

/-- Witness of C6: `find(5)` on the container that holds the keys 1, 3, 5, 10. -/
theorem find_returns_node_or_end_witness :
    (Shape zigzag zigzagTree ∧ zigzagTree.BST ∧ zigzagTree.size ≤ 4) ∧
    ∃ it e, zigzag.find 4 5 = .ok it ∧ zigzag.end 4 = .ok e ∧
      ((5 : Int) ∈ zigzagTree.keys → it.v ∈ zigzagTree.addrs ∧
        ∃ n : Node, zigzag.heap[it.v]? = some n ∧ n.key = 5) ∧
      (it.eq e = true ↔ (5 : Int) ∉ zigzagTree.keys) :=
  ⟨⟨shape_zigzag, bst_zigzag, by decide⟩,
    find_returns_node_or_end zigzag zigzagTree shape_zigzag bst_zigzag 5 4 (by decide)⟩

/-- C7 (the code departs from it): `range` drops an entry.  On the container that holds
the keys 1, 3, 5, 10, `range(1, 10)` returns the entries of the keys 1 and 3 only, for
every fuel that lets it return: the entry of key 5 is missing. -/
theorem range_misses_entry :
    Shape zigzag zigzagTree ∧ zigzagTree.BST ∧
    zigzagTree.entries = [(1, 0), (3, 0), (5, 0), (10, 0)] ∧
    ∀ fuel : Nat, zigzag.range (fuel + 3) 1 10 = .ok [(1, 0), (3, 0)] :=
  ⟨shape_zigzag, bst_zigzag, rfl, fun _ => rfl⟩

/-- C8 (the code departs from it): `lower_bound` past the last key does not return
`end()`.  On the container that holds the single key 1, `lower_bound(2)` never returns a
cursor: it builds the cursor at the node of key 1 and steps it forward, which calls
`top()` on the empty stack of parents. -/
theorem lower_bound_past_last_key :
    Shape single singleTree ∧ singleTree.BST ∧ singleTree.keys = [1] ∧
    (∀ fuel : Nat, single.lower_bound (fuel + 1) 2 = .error .emptyStack) ∧
    (∀ (fuel : Nat) (it : Iterator), single.lower_bound fuel 2 ≠ .ok it) := by
  refine ⟨shape_single, bst_single, rfl, fun _ => rfl, ?_⟩
  intro fuel it
  cases fuel with
  | zero => exact fun h => nomatch h
  | succ f => exact fun h => nomatch h

/-- C9: on a well-formed search tree that already holds the key `k`, `insert(k, v)`
returns and leaves the whole state as it was: store, root, cached bounds and sentinel. -/
theorem insert_existing_noop (s : Tree) (t : PTree) (hs : Shape s t) (hb : t.BST)
    (k : Int) (hk : k ∈ t.keys) (v : Int) (drawn fuel : Nat) (hf : t.size ≤ fuel) :
    s.insert fuel k v drawn = .ok s := by
  have hfind := find_models hs k fuel hf
  have hend : s.end fuel = .ok ⟨s.reserved, []⟩ := create_sentinel hs fuel
  cases hq : t.lookup k with
  | none => exact absurd hk ((PTree.lookup_none_iff k t hb).1 hq)
  | some b =>
    rw [hq] at hfind
    have hne : b ≠ s.reserved := fun e => hs.apart (e ▸ PTree.lookup_mem t hq)
    simp [Tree.insert, hfind, hend, Iterator.eq, hne]

/-- Witness of C9: `insert(5, 1)` on the container that holds the keys 1, 3, 5, 10. -/
theorem insert_existing_noop_witness :
    (Shape zigzag zigzagTree ∧ zigzagTree.BST ∧ (5 : Int) ∈ zigzagTree.keys ∧
      zigzagTree.size ≤ 4) ∧ zigzag.insert 4 5 1 7 = .ok zigzag :=
  ⟨⟨shape_zigzag, bst_zigzag, by simp [zigzagTree, PTree.keys], by decide⟩,
    insert_existing_noop zigzag zigzagTree shape_zigzag bst_zigzag 5
      (by simp [zigzagTree, PTree.keys]) 1 7 4 (by decide)⟩

/-- C10, counterexample: the sentinel changes identity on `insert`.  On the empty
container `end()` is the cursor at node 0; after `insert(1, 0)` the sentinel is node 1, the
root is node 0, and the cursor taken before references the entry (1, 0) and differs from
`end()`. -/
theorem sentinel_relabelled_by_insert :
    empty.end 1 = .ok ⟨0, []⟩ ∧ empty.reserved = 0 ∧ empty.insert 1 1 0 0 = .ok single ∧
    single.reserved = 1 ∧ single.end 1 = .ok ⟨1, []⟩ ∧ single.root = some 0 ∧
    Iterator.get single ⟨0, []⟩ = .ok (1, 0) ∧ Iterator.eq ⟨0, []⟩ ⟨1, []⟩ = false :=
  ⟨rfl, rfl, rfl, rfl, rfl, rfl, rfl, rfl⟩

/-- C10, amended: on a well-formed search tree that lacks the key `k`, `insert(k, v)` turns
the node that represented `end()` into the node of the new entry and makes a node newly
appended to the store the sentinel; a cursor obtained from `end()` before the insert
references the entry (k, v) of the tree afterwards and does not equal `end()`. -/
theorem insert_relabels_sentinel (s : Tree) (t : PTree) (hs : Shape s t) (hb : t.BST)
    (k : Int) (hk : k ∉ t.keys) (v : Int) (drawn fuel : Nat) (hf : t.size < fuel) :
    ∃ s2 t2 e e2, s.end fuel = .ok e ∧ s.insert fuel k v drawn = .ok s2 ∧ Shape s2 t2 ∧
      s2.end fuel = .ok e2 ∧ e.v = s.reserved ∧ e2.v = s2.reserved ∧
      s2.reserved = s.heap.length ∧ e.eq e2 = false ∧
      e.v ∈ t2.addrs ∧ Iterator.get s2 e = .ok (k, v) := by
  obtain ⟨s2, hins, hs2, hres, _⟩ := insert_models hs hb hk v drawn fuel hf
  have hend : s.end fuel = .ok ⟨s.reserved, []⟩ := create_sentinel hs fuel
  have hend2 : s2.end fuel = .ok ⟨s2.reserved, []⟩ := create_sentinel hs2 fuel
  obtain ⟨n, hn, _, _⟩ := hs.sentinel
  have hlt : s.reserved < s.heap.length := by
    rcases List.getElem?_eq_some.1 hn with ⟨hl, _⟩
    exact hl
  have hcell : (s.reserved, k, v, toInt32 drawn)
      ∈ (t.inserted (keyToInt k) s.reserved k v (toInt32 drawn)).cells := by
    rw [PTree.inserted_cells]; simp
  obtain ⟨m, hm, hmk, hmv, _⟩ := hs2.models.cell hcell
  refine ⟨s2, _, _, _, hend, hins, hs2, hend2, rfl, rfl, hres, ?_, PTree.cells_addr hcell, ?_⟩
  · simp only [Iterator.eq, hres, beq_eq_false_iff_ne, ne_eq]
    omega
  · simp only at hm hmk hmv
    simp [Iterator.get, deref_of_get hm, hmk, hmv]

/-- Witness of C10, amended: the key 5 inserted into the container that holds (1, 0). -/
theorem insert_relabels_sentinel_witness :
    (Shape single singleTree ∧ singleTree.BST ∧ (5 : Int) ∉ singleTree.keys ∧
      singleTree.size < 2) ∧
    ∃ s2 t2 e e2, single.end 2 = .ok e ∧ single.insert 2 5 0 7 = .ok s2 ∧ Shape s2 t2 ∧
      s2.end 2 = .ok e2 ∧ e.v = single.reserved ∧ e2.v = s2.reserved ∧
      s2.reserved = single.heap.length ∧ e.eq e2 = false ∧
      e.v ∈ t2.addrs ∧ Iterator.get s2 e = .ok (5, 0) :=
  ⟨⟨shape_single, bst_single, by simp [singleTree, PTree.keys], by decide⟩,
    insert_relabels_sentinel single singleTree shape_single bst_single 5
      (by simp [singleTree, PTree.keys]) 0 7 2 (by decide)⟩

/-- C11, counterexample: a move does not empty the source.  With the container `single`
(entry (1, 0)) as source, after move-construction and after move-assignment to the empty
container `second` the members of the source are what they were: its root is node 0,
`find(1)` is the cursor at node 0, `begin()` is that cursor too, and both differ from
`end()`, the cursor at node 1. -/
theorem move_keeps_source :
    moveConstruct single.obj = (single.obj, single.obj) ∧
    moveAssign second single.obj = (single.obj, single.obj) ∧
    ((moveAssign second single.obj).2.tree twoStore).root = some 0 ∧
    ((moveAssign second single.obj).2.tree twoStore).find 1 1 = .ok ⟨0, []⟩ ∧
    ((moveAssign second single.obj).2.tree twoStore).begin 1 = .ok ⟨0, []⟩ ∧
    ((moveAssign second single.obj).2.tree twoStore).end 1 = .ok ⟨1, []⟩ ∧
    Iterator.eq ⟨0, []⟩ ⟨1, []⟩ = false :=
  ⟨rfl, rfl, rfl, rfl, rfl, rfl, rfl⟩

/-- C11, amended: after move-construction or move-assignment from a source `st` the
destination has the root, the cached bounds and the sentinel of the source, so it holds
the entries the source had, in the same nodes; the source is left as it was: on a
well-formed search tree `find` on the source still returns a cursor, which equals `end()`
exactly for the keys the source did not hold before. -/
theorem move_shares_nodes (h : List Node) (d st : Obj) (t : PTree)
    (hs : Shape (st.tree h) t) (hb : t.BST) (k : Int) (fuel : Nat) (hf : t.size ≤ fuel) :
    (moveConstruct st).1.tree h = st.tree h ∧ (moveConstruct st).2 = st ∧
    (moveAssign d st).1.tree h = st.tree h ∧ (moveAssign d st).2 = st ∧
    Shape ((moveAssign d st).1.tree h) t ∧ Shape ((moveAssign d st).2.tree h) t ∧
    ∃ it e, ((moveAssign d st).2.tree h).find fuel k = .ok it ∧
      ((moveAssign d st).2.tree h).end fuel = .ok e ∧
      (it.eq e = true ↔ k ∉ t.keys) := by
  refine ⟨rfl, rfl, rfl, rfl, hs, hs, ?_⟩
  have hfind := find_models hs k fuel hf
  have hend : (st.tree h).end fuel = .ok ⟨(st.tree h).reserved, []⟩ := create_sentinel hs fuel
  refine ⟨_, _, hfind, hend, ?_⟩
  cases hq : t.lookup k with
  | none =>
    have hk := (PTree.lookup_none_iff k t hb).1 hq
    simp [Iterator.eq, hk]
  | some b =>
    have hk : k ∈ t.keys := by
      by_contra hk
      rw [(PTree.lookup_none_iff k t hb).2 hk] at hq
      simp at hq
    have hne : b ≠ (st.tree h).reserved := fun e => hs.apart (e ▸ PTree.lookup_mem t hq)
    simp [Iterator.eq, hne, hk]

/-- Witness of C11, amended: the container `single` moved to the container `second`. -/
theorem move_shares_nodes_witness :
    (Shape (single.obj.tree twoStore) singleTree ∧ singleTree.BST ∧ singleTree.size ≤ 1) ∧
    (moveConstruct single.obj).1.tree twoStore = single.obj.tree twoStore ∧
    (moveConstruct single.obj).2 = single.obj ∧
    (moveAssign second single.obj).1.tree twoStore = single.obj.tree twoStore ∧
    (moveAssign second single.obj).2 = single.obj ∧
    Shape ((moveAssign second single.obj).1.tree twoStore) singleTree ∧
    Shape ((moveAssign second single.obj).2.tree twoStore) singleTree ∧
    ∃ it e, ((moveAssign second single.obj).2.tree twoStore).find 1 1 = .ok it ∧
      ((moveAssign second single.obj).2.tree twoStore).end 1 = .ok e ∧
      (it.eq e = true ↔ (1 : Int) ∉ singleTree.keys) :=
  ⟨⟨shape_single_two, bst_single, by decide⟩,
    move_shares_nodes twoStore second single.obj singleTree shape_single_two bst_single 1 1
      (by decide)⟩

/-- C13: step-forward on a cursor at the sentinel ends with the out-of-range error, for
every container and every fuel, and leaves the members of the cursor as they were; the
call has no access to the container other than reading it. -/
theorem step_on_end_throws (s : Tree) (it : Iterator) (fuel : Nat) (h : it.v = s.reserved) :
    it.step fuel s = (it, .error .outOfRange) ∧ it.next fuel s = .error .outOfRange := by
  simp [Iterator.step, Iterator.next, h]

/-- Witness of C13: the cursor `end()` of the container that holds the keys 1, 3, 5, 10. -/
theorem step_on_end_throws_witness :
    (zigzag.end 1 = .ok ⟨4, []⟩ ∧ (⟨4, []⟩ : Iterator).v = zigzag.reserved) ∧
    Iterator.step 9 zigzag ⟨4, []⟩ = (⟨4, []⟩, .error .outOfRange) ∧
    Iterator.next 9 zigzag ⟨4, []⟩ = .error .outOfRange :=
  ⟨⟨rfl, rfl⟩, step_on_end_throws zigzag ⟨4, []⟩ 9 rfl⟩

/-- C14: on a well-formed search tree that lacks the key `k`, `erase(k)` returns without
an error and leaves the whole state as it was: store, root, cached bounds and sentinel. -/
theorem erase_absent_noop (s : Tree) (t : PTree) (hs : Shape s t) (hb : t.BST)
    (k : Int) (hk : k ∉ t.keys) (fuel : Nat) (hf : t.size ≤ fuel) :
    s.erase fuel k = .ok s := by
  have hfind := find_models hs k fuel hf
  rw [(PTree.lookup_none_iff k t hb).2 hk] at hfind
  have hend : s.end fuel = .ok ⟨s.reserved, []⟩ := create_sentinel hs fuel
  simp [Tree.erase, hfind, hend, Iterator.eq]

/-- Witness of C14: `erase(4)` on the container that holds the keys 1, 3, 5, 10. -/
theorem erase_absent_noop_witness :
    (Shape zigzag zigzagTree ∧ zigzagTree.BST ∧ (4 : Int) ∉ zigzagTree.keys ∧
      zigzagTree.size ≤ 4) ∧ zigzag.erase 4 4 = .ok zigzag :=
  ⟨⟨shape_zigzag, bst_zigzag, by simp [zigzagTree, PTree.keys], by decide⟩,
    erase_absent_noop zigzag zigzagTree shape_zigzag bst_zigzag 4
      (by simp [zigzagTree, PTree.keys]) 4 (by decide)⟩

/-- C16: for two stored trees with disjoint nodes that satisfy the BST and the heap
invariant, every key of the first smaller than every key of the second, `merge(l, r)`
returns a stored tree that satisfies both invariants and whose in-order sequence of
entries (and of triples) is that of `l` followed by that of `r`. -/
theorem merge_joins (h : List Node) (l r : PTree) (hl : Models h l) (hr : Models h r)
    (hnd : (l.addrs ++ r.addrs).Nodup) (hbl : l.BST) (hbr : r.BST)
    (hhl : l.HeapOrdered) (hhr : r.HeapOrdered)
    (hlt : ∀ x ∈ l.keys, ∀ y ∈ r.keys, x < y) (fuel : Nat) (hf : l.size + r.size ≤ fuel) :
    ∃ h2 t, merge fuel h l.ptr r.ptr = .ok (h2, t.ptr) ∧ Models h2 t ∧ t.BST ∧
      t.HeapOrdered ∧ t.entries = l.entries ++ r.entries ∧ t.items = l.items ++ r.items := by
  obtain ⟨h2, hmg, hm2, _, _⟩ := merge_models fuel l r h hl hr hnd hf
  refine ⟨h2, _, hmg, hm2, PTree.merge_bst _ l r le_rfl hbl hbr hlt,
    PTree.merge_heapOrdered _ l r le_rfl hhl hhr, ?_, PTree.merge_items _ l r le_rfl⟩
  rw [PTree.entries_eq_items, PTree.merge_items _ l r le_rfl, List.map_append,
    ← PTree.entries_eq_items, ← PTree.entries_eq_items]

/-- Witness of C16: in the store of the keys 2, 1, 3 the subtree of key 1 merged with the
subtree of key 3. -/
theorem merge_joins_witness :
    (Models triple.heap (.node 1 .nil 1 0 5 .nil) ∧ Models triple.heap (.node 2 .nil 3 0 5 .nil) ∧
      ((PTree.node 1 .nil 1 0 5 .nil).addrs ++ (PTree.node 2 .nil 3 0 5 .nil).addrs).Nodup ∧
      (PTree.node 1 .nil 1 0 5 .nil).BST ∧ (PTree.node 2 .nil 3 0 5 .nil).BST ∧
      (PTree.node 1 .nil 1 0 5 .nil).HeapOrdered ∧ (PTree.node 2 .nil 3 0 5 .nil).HeapOrdered ∧
      (∀ x ∈ (PTree.node 1 .nil 1 0 5 .nil).keys,
        ∀ y ∈ (PTree.node 2 .nil 3 0 5 .nil).keys, x < y)) ∧
    ∃ h2 t, merge 2 triple.heap (PTree.node 1 .nil 1 0 5 .nil).ptr
        (PTree.node 2 .nil 3 0 5 .nil).ptr = .ok (h2, t.ptr) ∧ Models h2 t ∧ t.BST ∧
      t.HeapOrdered ∧
      t.entries = (PTree.node 1 .nil 1 0 5 .nil).entries
        ++ (PTree.node 2 .nil 3 0 5 .nil).entries ∧
      t.items = (PTree.node 1 .nil 1 0 5 .nil).items
        ++ (PTree.node 2 .nil 3 0 5 .nil).items :=
  ⟨⟨⟨rfl, trivial, trivial⟩, ⟨rfl, trivial, trivial⟩, by simp [PTree.addrs],
      by simp [PTree.BST, PTree.keys], by simp [PTree.BST, PTree.keys],
      by simp [PTree.HeapOrdered, PTree.prio], by simp [PTree.HeapOrdered, PTree.prio],
      by simp [PTree.keys]⟩,
    merge_joins triple.heap (.node 1 .nil 1 0 5 .nil) (.node 2 .nil 3 0 5 .nil)
      ⟨rfl, trivial, trivial⟩ ⟨rfl, trivial, trivial⟩ (by simp [PTree.addrs])
      (by simp [PTree.BST, PTree.keys]) (by simp [PTree.BST, PTree.keys])
      (by simp [PTree.HeapOrdered, PTree.prio]) (by simp [PTree.HeapOrdered, PTree.prio])
      (by simp [PTree.keys]) 2 (by decide)⟩

/-- C17: on a stored search tree in which every priority is greater than the priorities
of the children, `split(t, k)` returns two stored trees, every key of the first smaller
than every key of the second, and `merge` of the two returns the pointer to `t` and the
store as it was before the split: the same shape, keys, values and priorities at the
same nodes. -/
theorem merge_undoes_split (h : List Node) (t : PTree) (hm : Models h t)
    (hnd : t.addrs.Nodup) (hb : t.BST) (hsh : t.StrictHeap) (k : Int) (fuel : Nat)
    (hf : t.size ≤ fuel) :
    ∃ h1 L R, split fuel h t.ptr k = .ok (h1, L.ptr, R.ptr) ∧ Models h1 L ∧ Models h1 R ∧
      (∀ x ∈ L.keys, ∀ y ∈ R.keys, x < y) ∧
      merge fuel h1 L.ptr R.ptr = .ok (h, t.ptr) := by
  obtain ⟨h1, hs, hm1, hm2, hlen1, hfr1⟩ := split_models k t fuel h hm hnd hf
  have hnd2 : ((t.split k).1.addrs ++ (t.split k).2.addrs).Nodup := by
    rw [PTree.split_addrs]; exact hnd
  obtain ⟨h2, hmg, hmm, hlen2, hfr2⟩ := merge_models fuel _ _ h1 hm1 hm2 hnd2
    (by rw [PTree.split_size]; exact hf)
  rw [PTree.merge_split k t hsh] at hmg hmm
  have heq : h2 = h := by
    apply List.ext_getElem?
    intro x
    by_cases hx : x ∈ t.addrs
    · exact Models.agree hm hmm x hx
    · have hx1 : x ∉ (t.split k).1.addrs := fun hh => hx (PTree.mem_split_fst_addrs hh)
      have hx2 : x ∉ (t.split k).2.addrs := fun hh => hx (PTree.mem_split_snd_addrs hh)
      rw [hfr2 x hx1 hx2, hfr1 x hx]
  rw [heq] at hmg
  obtain ⟨_, _, b3, b4⟩ := PTree.split_bst k t hb
  exact ⟨h1, _, _, hs, hm1, hm2, fun x hx y hy => lt_of_lt_of_le (b3 x hx) (b4 y hy), hmg⟩

/-- Witness of C17: the tree of the keys 1, 3, 5, 10 split at the key 4 and merged. -/
theorem merge_undoes_split_witness :
    (Models zigzag.heap zigzagTree ∧ zigzagTree.addrs.Nodup ∧ zigzagTree.BST ∧
      zigzagTree.StrictHeap ∧ zigzagTree.size ≤ 4) ∧
    ∃ h1 L R, split 4 zigzag.heap zigzagTree.ptr 4 = .ok (h1, L.ptr, R.ptr) ∧
      Models h1 L ∧ Models h1 R ∧ (∀ x ∈ L.keys, ∀ y ∈ R.keys, x < y) ∧
      merge 4 h1 L.ptr R.ptr = .ok (zigzag.heap, zigzagTree.ptr) :=
  ⟨⟨shape_zigzag.models, shape_zigzag.nodup, bst_zigzag,
      by simp [zigzagTree, PTree.StrictHeap, PTree.prio], by decide⟩,
    merge_undoes_split zigzag.heap zigzagTree shape_zigzag.models shape_zigzag.nodup
      bst_zigzag (by simp [zigzagTree, PTree.StrictHeap, PTree.prio]) 4 4 (by decide)⟩

/-- C18 (the code departs from it): step-forward leaves an ancestor off the stack.  In the
container that holds the keys 1, 3, 5, 10 the node of key 3 is the left child of the node
of key 5 (node 2), which is the right child of the node of key 1 (node 1), the left child
of the root (node 0).  The cursor at key 1 has the stack of its proper ancestors, [0];
one step forward lands on the node of key 3 with the stack [1, 0], while the chain of
proper ancestors of that node, as the constructor builds it, is [2, 1, 0]: node 2, passed
on the way down, was not pushed. -/
theorem step_loses_ancestor :
    Shape zigzag zigzagTree ∧ zigzagTree.BST ∧
    zigzagTree.chain 1 [] = [0] ∧ zigzagTree.chain 3 [] = [2, 1, 0] ∧
    ∀ fuel : Nat, Iterator.create (fuel + 4) zigzag (some 1) = .ok ⟨1, [0]⟩ ∧
      Iterator.next (fuel + 4) zigzag ⟨1, [0]⟩ = .ok ⟨3, [1, 0]⟩ ∧
      Iterator.create (fuel + 4) zigzag (some 3) = .ok ⟨3, [2, 1, 0]⟩ :=
  ⟨shape_zigzag, bst_zigzag, rfl, rfl, fun _ => ⟨rfl, rfl, rfl⟩⟩

/-- C19: on a well-formed search tree, for every node that does not hold the largest key,
the cursor the constructor builds at that node exists, one step forward from it returns,
and the cursor then references the node of the tree with the smallest key greater than
the key of the start node. -/
theorem fresh_cursor_steps_to_successor (s : Tree) (t : PTree) (hs : Shape s t)
    (hb : t.BST) (a : Nat) (ka va pa : Int) (hc : (a, ka, va, pa) ∈ t.cells)
    (hmax : ∃ y ∈ t.keys, ka < y) (fuel : Nat) (hf : t.size ≤ fuel) :
    ∃ it it2 m, Iterator.create fuel s (some a) = .ok it ∧ it.v = a ∧
      it.next fuel s = .ok it2 ∧ it2.v ∈ t.addrs ∧ s.heap[it2.v]? = some m ∧
      ka < m.key ∧ ∀ y ∈ t.keys, ka < y → m.key ≤ y := by
  have hq : t.lookup ka = some a := PTree.lookup_of_cell hb hc
  have hcr := create_models hs hq fuel hf
  obtain ⟨h1, h2⟩ := next_in_subtree s ka t [] a hs.models hs.nodup hs.apart hb hq
  cases hab : t.above ka none with
  | none =>
    obtain ⟨y, hy, hlt⟩ := hmax
    have := PTree.above_none ka t hb hab y hy
    omega
  | some b =>
    obtain ⟨ps, hn⟩ := h1 b hab fuel hf
    obtain ⟨⟨v, p, hcell⟩, hgt, hmin⟩ := PTree.above_some ka t b hb hab
    obtain ⟨m, hm, hmk, _, _⟩ := hs.models.cell hcell
    simp only at hm hmk
    exact ⟨_, _, m, hcr, rfl, hn, PTree.cells_addr hcell, hm, by omega,
      fun y hy hxy => by have := hmin y hy hxy; omega⟩

/-- Witness of C19: in the container that holds the keys 1, 3, 5, 10, the cursor built at
the node of key 3 steps to the node of key 5. -/
theorem fresh_cursor_steps_to_successor_witness :
    (Shape zigzag zigzagTree ∧ zigzagTree.BST ∧ (3, 3, 0, 70) ∈ zigzagTree.cells ∧
      (∃ y ∈ zigzagTree.keys, (3 : Int) < y) ∧ zigzagTree.size ≤ 4) ∧
    ∃ it it2 m, Iterator.create 4 zigzag (some 3) = .ok it ∧ it.v = 3 ∧
      it.next 4 zigzag = .ok it2 ∧ it2.v ∈ zigzagTree.addrs ∧
      zigzag.heap[it2.v]? = some m ∧
      3 < m.key ∧ ∀ y ∈ zigzagTree.keys, 3 < y → m.key ≤ y :=
  ⟨⟨shape_zigzag, bst_zigzag, by simp [zigzagTree, PTree.cells],
      ⟨5, by simp [zigzagTree, PTree.keys], by decide⟩, by decide⟩,
    fresh_cursor_steps_to_successor zigzag zigzagTree shape_zigzag bst_zigzag 3 3 0 70
      (by simp [zigzagTree, PTree.cells]) ⟨5, by simp [zigzagTree, PTree.keys], by decide⟩
      4 (by decide)⟩

/-- C20 (the code departs from it): the shape depends on the insertion order when a key
is not an `int`.  The items (10, 0) and (4294967301, 0), with the drawn priorities 100 and
90, have distinct keys and distinct priorities.  Inserted in this order the node of key
4294967301, split at 5, becomes the left child of the root 10; inserted in the other
order the node of key 10 is split at 10 and the node of key 4294967301 becomes its right
child: the two trees differ in shape. -/
theorem insert_order_changes_shape :
    (([(10, 0, 100), (4294967301, 0, 90)] : List (Int × Int × Nat)).map
      (fun e => e.1)).Nodup ∧
    (([(10, 0, 100), (4294967301, 0, 90)] : List (Int × Int × Nat)).map
      (fun e => toInt32 e.2.2)).Nodup ∧
    ([(4294967301, 0, 90), (10, 0, 100)] : List (Int × Int × Nat)).Perm
      [(10, 0, 100), (4294967301, 0, 90)] ∧
    Shape wide wideTree ∧ Shape wideRev wideRevTree ∧
    wideTree.strip ≠ wideRevTree.strip ∧
    ∀ fuel : Nat, insertAll (fuel + 2) empty [(10, 0, 100), (4294967301, 0, 90)] = .ok wide ∧
      insertAll (fuel + 2) empty [(4294967301, 0, 90), (10, 0, 100)] = .ok wideRev :=
  ⟨by decide, by decide, List.Perm.swap _ _ _, shape_wide, shape_wideRev, by decide,
    fun _ => ⟨rfl, rfl⟩⟩

end SearchingTree
